import Mathlib

/-!
Grade-sheet extraction and credential lifecycle of the BARS service.

A shallow embedding of `internal/service/bars/bars.go` (and of the
`Authorization` of `internal/service/bars_credential/bars_credential.go`).

* Go `string` values are Lean `String`s.  The only pattern the code uses is
  `\s+`, whose class in Go's `regexp` is the ASCII set `[\t\n\f\r ]`, and the
  only literal it trims or replaces is the single space, so the cleaning acts
  the same on runes as on bytes.
* A `*goquery.Document` is represented by what the selector queries of the
  code return on it, in document order (`Document`).
* Closures passed to `EachWithBreak` mutate captured variables; here the
  captured variables are an explicit state record and `EachWithBreak` is a
  left-to-right loop that stops when the callback returns `false`.
* A Go run-time panic (index out of range, nil dereference) is the `error`
  side of `Except GoPanic _`; a Go `(value, error)` result is a pair of
  `Option`s.
-/

namespace bars

/-! ## Domain types (`internal/domain`) and errors (`internal/errors`) -/

/-- A graded assessment item of a discipline (`domain.ControlEvent`). -/
structure ControlEvent where
  Name : String
  Grade : String
deriving DecidableEq, Repr

/-- A discipline with its control events (`domain.Discipline`). -/
structure Discipline where
  Name : String
  ControlEvents : List ControlEvent
deriving DecidableEq, Repr

/-- A snapshot of a student's grades (`domain.ProgressTable`). -/
structure ProgressTable where
  UserID : Int
  Disciplines : List Discipline
deriving DecidableEq, Repr

/-- Stored portal credentials (`domain.BarsCredentials`); `Password` is a
byte slice, plaintext in transit and ciphertext at rest. -/
structure BarsCredentials where
  UserID : Int
  Username : String
  Password : List Nat
deriving DecidableEq, Repr

/-- A user row (`domain.User`). -/
structure User where
  ID : Int
deriving DecidableEq, Repr

/-- Error values.  `wrapped ctx e` is `fmt.Errorf("ctx: %w", e)`; `emptyData`
is `fmt.Errorf("part of received data is empty. tdId: %d trId: %d tbodyId: %d", ..)`;
`emptyName` is `fmt.Errorf("part of received data is empty. nameID: %d", ..)`;
`notUtf8` is `errors.New("progress table contains not utf8 characters")`;
`external` is an error produced by a collaborator (store, client, cipher). -/
inductive Error where
  | ErrWrongGradesPage
  | ErrAlreadyAuth
  | emptyData (tdId trId tbodyId : Nat)
  | emptyName (nameId : Nat)
  | notUtf8
  | wrapped (context : String) (cause : Error)
  | external (message : String)
deriving DecidableEq, Repr

/-- Run-time panics of the Go program. -/
inductive GoPanic where
  | indexOutOfRange (index length : Nat)
  | nilDereference
deriving DecidableEq, Repr

/-! ## The document, as seen through the selectors the code uses -/

/-- A child node of a discipline-name block: a text node, or an element
(with the text it contains). -/
inductive Node where
  | text (data : String)
  | element (innerText : String)
deriving DecidableEq, Repr

/-- One match of `.my-2 div:first-child`. -/
structure NameBlock where
  children : List Node
deriving DecidableEq, Repr

/-- One `tr`: the texts of `tr.Find("td")`, in order. -/
structure Tr where
  td : List String
deriving DecidableEq, Repr

/-- One `tbody`: the rows of `tbody.Find("tr")`, in order. -/
structure Tbody where
  tr : List Tr
deriving DecidableEq, Repr

/-- A parsed page: the number of matches of
`div#div-Student_SemesterSheet__Mark`, the matches of `tbody` and the matches
of `.my-2 div:first-child`, in document order. -/
structure Document where
  mark : Nat
  tbody : List Tbody
  names : List NameBlock
deriving DecidableEq, Repr

/-- Text of a node: `Text()` concatenates the text nodes below it. -/
def Node.Text : Node → String
  | .text d => d
  | .element t => t

/-- Effect of `Clone().Children().Remove().End()` on one name block: the
element children are removed from the copy, the text nodes stay. -/
def NameBlock.removeChildren (b : NameBlock) : NameBlock :=
  ⟨b.children.filter fun n => match n with
    | .text _ => true
    | .element _ => false⟩

/-- Result of `Text()` on a name block. -/
def NameBlock.Text (b : NameBlock) : String :=
  ⟨(b.children.map fun n => n.Text.data).flatten⟩

/-! ## String helpers (`regexp`, `strings`) at the arguments the code passes -/

/-- The class `\s` of Go's `regexp`: tab, line feed, form feed, carriage
return, space. -/
def isSpace (c : Char) : Bool :=
  c.toNat = 9 || c.toNat = 10 || c.toNat = 12 || c.toNat = 13 || c.toNat = 32

/-- Worker of `ReplaceAllString` for `\s+` and `" "`: `inRun` tells that the
previous character belonged to the current whitespace run, whose single space
has already been written. -/
def replaceRuns : Bool → List Char → List Char
  | _, [] => []
  | inRun, c :: cs =>
    if isSpace c then
      if inRun then replaceRuns true cs else ' ' :: replaceRuns true cs
    else c :: replaceRuns false cs

/-- Value of `regexp.MustCompile("\\s+").ReplaceAllString(s, " ")`. -/
def ReplaceAllString (s : String) : String :=
  ⟨replaceRuns false s.data⟩

/-- Value of `strings.TrimSuffix(s, " ")`. -/
def TrimSuffix (s : String) : String :=
  if s.data.getLast? = some ' ' then ⟨s.data.dropLast⟩ else s

/-- Value of `strings.HasPrefix(s, " ")`. -/
def HasPrefix (s : String) : Bool :=
  s.data.head? = some ' '

/-- Value of `strings.Replace(s, " ", "", 1)`: the first space is removed. -/
def Replace (s : String) : String :=
  ⟨s.data.erase ' '⟩

/-- The source function `isEmptyData`. -/
def isEmptyData (data : String) : Bool :=
  data = "" || data = " "

/-- The source function `isGradePage`. -/
def isGradePage (document : Document) : Bool :=
  document.mark != 0

/-- Loop of `EachWithBreak`: the callback gets the index and the element and
returns the new values of the captured variables and whether to go on. -/
def EachWithBreak {α σ : Type} (f : Nat → α → σ → σ × Bool) : Nat → List α → σ → σ
  | _, [], s => s
  | i, a :: as, s =>
    match f i a s with
    | (s', true) => EachWithBreak f (i + 1) as s'
    | (s', false) => s'

/-- Selection filter `FilterFunction`: keeps the elements the predicate
accepts; the predicate also gets the element's index. -/
def FilterFunction {α : Type} (f : Nat → α → Bool) : Nat → List α → List α
  | _, [] => []
  | i, a :: as => if f i a then a :: FilterFunction f (i + 1) as else FilterFunction f (i + 1) as

/-! ## `extractDisciplinesData` -/

/-- Variables of `extractDisciplinesData` and of its closures: the captured
`err`, `isContinue` and `progressTable`, the `discipline` of the current
`tbody` and the `controlEvent` of the current row. -/
structure DataState where
  err : Option Error
  isContinue : Bool
  progressTable : ProgressTable
  discipline : Discipline
  controlEvent : ControlEvent
deriving DecidableEq, Repr

/-- The closure `filterTrSelection`: a row is kept when it has 4 or 2 cells. -/
def filterTrSelection (_i : Nat) (tr : Tr) : Bool :=
  let trLen := tr.td.length
  trLen = 4 || trLen = 2

/-- Callback of the loop over the cells of one row. -/
def tdCallback (tbodyId trId tdLength : Nat) (tdId : Nat) (td : String)
    (s : DataState) : DataState × Bool :=
  let processedData := TrimSuffix (ReplaceAllString td)
  let s :=
    if tdId = 0 then
      let s :=
        if isEmptyData processedData then
          { s with err := some (.emptyData tdId trId tbodyId), isContinue := false }
        else s
      let processedData :=
        if HasPrefix processedData then Replace processedData else processedData
      { s with controlEvent := { s.controlEvent with Name := processedData } }
    else if (tdId : Int) = (tdLength : Int) - 1 then
      let processedData :=
        if isEmptyData processedData then "отсутствует"
        else if HasPrefix processedData then Replace processedData
        else processedData
      { s with controlEvent := { s.controlEvent with Grade := processedData } }
    else s
  (s, s.isContinue)

/-- Callback of the loop over the kept rows of one `tbody`. -/
def trCallback (tbodyId : Nat) (trId : Nat) (tr : Tr) (s : DataState) : DataState × Bool :=
  let s := { s with controlEvent := { Name := "", Grade := "" } }
  let tdSelection := tr.td
  let s := EachWithBreak (tdCallback tbodyId trId tdSelection.length) 0 tdSelection s
  let s := { s with discipline :=
    { s.discipline with ControlEvents := s.discipline.ControlEvents ++ [s.controlEvent] } }
  (s, s.isContinue)

/-- Callback of the loop over the `tbody` blocks. -/
def tbodyCallback (tbodyId : Nat) (tbody : Tbody) (s : DataState) : DataState × Bool :=
  let trSelection := FilterFunction filterTrSelection 0 tbody.tr
  let s := { s with discipline := { Name := "", ControlEvents := [] } }
  let s := EachWithBreak (trCallback tbodyId) 0 trSelection s
  let s := { s with progressTable :=
    { s.progressTable with Disciplines := s.progressTable.Disciplines ++ [s.discipline] } }
  (s, s.isContinue)

/-- The source function `extractDisciplinesData`: the table it leaves behind
in `*progressTable` and the error it returns. -/
def extractDisciplinesData (document : Document) (progressTable : ProgressTable) :
    ProgressTable × Option Error :=
  let s := EachWithBreak tbodyCallback 0 document.tbody
    { err := none, isContinue := true, progressTable := progressTable,
      discipline := { Name := "", ControlEvents := [] },
      controlEvent := { Name := "", Grade := "" } }
  (s.progressTable, s.err)

/-! ## `extractDisciplineNames` -/

/-- Variables of `extractDisciplineNames`: the captured `err`, the table
behind `pt`, and the panic raised by the callback, if any. -/
structure NamesState where
  err : Option Error
  pt : ProgressTable
  panic : Option GoPanic
deriving DecidableEq, Repr

/-- The assignment `ds[nameId].Name = name`; `none` when the index is out of
range. -/
def setName : List Discipline → Nat → String → Option (List Discipline)
  | [], _, _ => none
  | d :: ds, 0, name => some ({ d with Name := name } :: ds)
  | d :: ds, i + 1, name => (setName ds i name).map (d :: ·)

/-- Callback of the loop over the discipline-name blocks. -/
def nameCallback (nameId : Nat) (name : NameBlock) (s : NamesState) : NamesState × Bool :=
  let processedName := ReplaceAllString name.Text
  let processedName := TrimSuffix processedName
  let processedName :=
    if HasPrefix processedName then Replace processedName else processedName
  if isEmptyData processedName then
    ({ s with err := some (.emptyName nameId) }, false)
  else
    match setName s.pt.Disciplines nameId processedName with
    | none =>
      ({ s with panic := some (.indexOutOfRange nameId s.pt.Disciplines.length) }, false)
    | some ds => ({ s with pt := { s.pt with Disciplines := ds } }, true)

/-- The source function `extractDisciplineNames`: it panics, or leaves a
table behind in `*pt` and returns an error or nil. -/
def extractDisciplineNames (document : Document) (pt : ProgressTable) :
    Except GoPanic (ProgressTable × Option Error) :=
  let s := EachWithBreak nameCallback 0 (document.names.map NameBlock.removeChildren)
    { err := none, pt := pt, panic := none }
  match s.panic with
  | some p => .error p
  | none => .ok (s.pt, s.err)

/-! ## `validateProgressTable` and `extractProgressTable` -/

/-- The source function `validateProgressTable`.  `validString pt` stands for
`utf8.ValidString(pt.String())`; the method `String` of `domain.ProgressTable`
is not part of the sources at hand, so the test is a parameter. -/
def validateProgressTable (validString : ProgressTable → Bool) (pt : ProgressTable) :
    Option Error :=
  if !validString pt then some .notUtf8 else none

/-- The source function `extractProgressTable`. -/
def extractProgressTable (validString : ProgressTable → Bool) (document : Document) :
    Except GoPanic (Option ProgressTable × Option Error) :=
  if !isGradePage document then .ok (none, some .ErrWrongGradesPage)
  else
    let progressTable : ProgressTable := { UserID := 0, Disciplines := [] }
    match extractDisciplinesData document progressTable with
    | (_, some err) => .ok (none, some (.wrapped "extractDisciplinesData" err))
    | (progressTable, none) =>
      match extractDisciplineNames document progressTable with
      | .error p => .error p
      | .ok (_, some err) => .ok (none, some (.wrapped "extractDisciplineNames" err))
      | .ok (progressTable, none) =>
        match validateProgressTable validString progressTable with
        | some err => .ok (none, some (.wrapped "validateProgressTable" err))
        | none => .ok (some progressTable, none)

/-! ## Collaborators of the service

The stores (`repository.BarsCredentials`, `service.ProgressTable`,
`service.User`), the session client (`pkg/bars`), the cipher (`pkg/aes`) and
the HTML parser are interfaces or packages outside the sources at hand.  They
are parameters: an `Env σ` gives each of them as a function on a state `σ` of
the outside world.  A `World` pairs that state with the log of the calls made
so far, each with whether it returned without error. -/

/-- A session client (`bars.Client`), named by a handle. -/
abbrev Client := Nat

/-- A response body, before parsing. -/
abbrev Body := String

/-- The part of `config.Bars` the service reads. -/
structure Config where
  EncryptionKey : String
deriving DecidableEq, Repr

/-- A call made to a collaborator. -/
inductive Call where
  | GetByUserID (userID : Int)
  | SaveCredentials (credentials : BarsCredentials)
  | DeleteCredentials (userID : Int)
  | SaveUser (user : User)
  | SaveProgressTable (progressTable : Option ProgressTable)
  | DeleteProgressTable (userID : Int)
  | NewClient
  | ClientAuthorization (client : Client) (username : String) (password : List Nat)
  | MakeRequest (client : Client)
  | Clear (client : Client)
deriving DecidableEq, Repr

/-- Behaviour of the collaborators on a world state `σ`. -/
structure Env (σ : Type) where
  GetByUserID : Int → σ → Except Error (Option BarsCredentials) × σ
  SaveCredentials : BarsCredentials → σ → Option Error × σ
  DeleteCredentials : Int → σ → Option Error × σ
  SaveUser : User → σ → Option Error × σ
  SaveProgressTable : Option ProgressTable → σ → Option Error × σ
  DeleteProgressTable : Int → σ → Option Error × σ
  NewClient : σ → Client × σ
  ClientAuthorization : Client → String → List Nat → σ → Option Error × σ
  MakeRequest : Client → σ → Except Error Body × σ
  Clear : Client → σ → σ
  NewDocumentFromReader : Body → Except Error Document
  Encrypt : String → List Nat → Except Error (List Nat)
  validString : ProgressTable → Bool

/-- State of the outside world and the log of collaborator calls. -/
structure World (σ : Type) where
  state : σ
  trace : List (Call × Bool)

/-- The world after a call: new state, call appended to the log. -/
def World.record {σ : Type} (w : World σ) (call : Call) (ok : Bool) (state : σ) : World σ :=
  { state := state, trace := w.trace ++ [(call, ok)] }

/-- The fields of `svc` the operations read; `barsClient` is the client
`NewService` creates. -/
structure svc where
  cfg : Config
  barsClient : Client
deriving DecidableEq, Repr

/-! ## `getGradesPageDocument`, `GetProgressTable`, `Authorization`, `Logout` -/

/-- The source function `getGradesPageDocument`. -/
def getGradesPageDocument {σ : Type} (env : Env σ) (barsClient : Client) (w : World σ) :
    (Option Document × Option Error) × World σ :=
  match env.MakeRequest barsClient w.state with
  | (.error err, st) =>
    ((none, some (.wrapped "barsClient.MakeRequest" err)),
      w.record (.MakeRequest barsClient) false st)
  | (.ok response, st) =>
    let w := w.record (.MakeRequest barsClient) true st
    match env.NewDocumentFromReader response with
    | .error err => ((none, some (.wrapped "goquery.NewDocumentFromReader" err)), w)
    | .ok document =>
      if !isGradePage document then ((none, some .ErrWrongGradesPage), w)
      else ((some document, none), w)

/-- The statements of `GetProgressTable` after the nil check, with the client
in use. -/
def GetProgressTable.run {σ : Type} (env : Env σ) (credentials : BarsCredentials)
    (barsClient : Client) (w : World σ) :
    Except GoPanic (Option ProgressTable × Option Error) × World σ :=
  match env.ClientAuthorization barsClient credentials.Username credentials.Password w.state with
  | (some err, st) =>
    (.ok (none, some (.wrapped "barsClient.Authorization" err)),
      w.record (.ClientAuthorization barsClient credentials.Username credentials.Password) false st)
  | (none, st) =>
    let w := w.record
      (.ClientAuthorization barsClient credentials.Username credentials.Password) true st
    match getGradesPageDocument env barsClient w with
    | ((_, some err), w) => (.ok (none, some (.wrapped "getGradesPageDocument" err)), w)
    | ((none, none), w) => (.error .nilDereference, w)
    | ((some document, none), w) =>
      match extractProgressTable env.validString document with
      | .error p => (.error p, w)
      | .ok (_, some err) => (.ok (none, some (.wrapped "extractProgressTable" err)), w)
      | .ok (none, none) => (.error .nilDereference, w)
      | .ok (some progressTable, none) =>
        (.ok (some { progressTable with UserID := credentials.UserID }, none), w)

/-- The source method `GetProgressTable`; `barsClient = none` is the nil
client, replaced by a new one. -/
def GetProgressTable {σ : Type} (env : Env σ) (credentials : BarsCredentials)
    (barsClient : Option Client) (w : World σ) :
    Except GoPanic (Option ProgressTable × Option Error) × World σ :=
  match barsClient with
  | some c => GetProgressTable.run env credentials c w
  | none =>
    match env.NewClient w.state with
    | (c, st) => GetProgressTable.run env credentials c (w.record .NewClient true st)

/-- Body of the source method `Authorization`, before the deferred calls:
the returned error (or the panic), the value left in `*credentials`, and the
world. -/
def Authorization.body {σ : Type} (env : Env σ) (s : svc) (credentials : BarsCredentials)
    (w : World σ) : Except GoPanic (Option Error) × BarsCredentials × World σ :=
  match env.GetByUserID credentials.UserID w.state with
  | (.error err, st) =>
    (.ok (some (.wrapped "barsCredentialsRepo.GetByUserID" err)), credentials,
      w.record (.GetByUserID credentials.UserID) false st)
  | (.ok (some _), st) =>
    (.ok (some .ErrAlreadyAuth), credentials, w.record (.GetByUserID credentials.UserID) true st)
  | (.ok none, st) =>
    let w := w.record (.GetByUserID credentials.UserID) true st
    match env.SaveUser { ID := credentials.UserID } w.state with
    | (some err, st) =>
      (.ok (some (.wrapped "userSvc.Save" err)), credentials,
        w.record (.SaveUser { ID := credentials.UserID }) false st)
    | (none, st) =>
      let w := w.record (.SaveUser { ID := credentials.UserID }) true st
      match GetProgressTable env credentials (some s.barsClient) w with
      | (.error p, w) => (.error p, credentials, w)
      | (.ok (_, some err), w) =>
        (.ok (some (.wrapped "svc.GetProgressTable" err)), credentials, w)
      | (.ok (progressTable, none), w) =>
        match env.Encrypt s.cfg.EncryptionKey credentials.Password with
        | .error err => (.ok (some (.wrapped "aes.Encrypt (password)" err)), credentials, w)
        | .ok encryptedPassword =>
          let credentials := { credentials with Password := encryptedPassword }
          match env.SaveCredentials credentials w.state with
          | (some err, st) =>
            (.ok (some (.wrapped "barsCredentialsRepo.Save" err)), credentials,
              w.record (.SaveCredentials credentials) false st)
          | (none, st) =>
            let w := w.record (.SaveCredentials credentials) true st
            match env.SaveProgressTable progressTable w.state with
            | (some err, st) =>
              (.ok (some (.wrapped "progressTableSvc.Save" err)), credentials,
                w.record (.SaveProgressTable progressTable) false st)
            | (none, st) =>
              (.ok none, credentials, w.record (.SaveProgressTable progressTable) true st)

/-- The source method `Authorization` of `internal/service/bars`: the body,
then the deferred `s.barsClient.Clear()`, which also runs when the body
panics.  (The mutex only serialises callers and is not modelled.) -/
def Authorization {σ : Type} (env : Env σ) (s : svc) (credentials : BarsCredentials)
    (w : World σ) : Except GoPanic (Option Error) × BarsCredentials × World σ :=
  match Authorization.body env s credentials w with
  | (r, credentials, w) =>
    (r, credentials, w.record (.Clear s.barsClient) true (env.Clear s.barsClient w.state))

/-- The source method `Logout` of `internal/service/bars`. -/
def Logout {σ : Type} (env : Env σ) (userID : Int) (w : World σ) : Option Error × World σ :=
  match env.DeleteProgressTable userID w.state with
  | (some err, st) =>
    (some (.wrapped "progressTableSvc.Delete" err),
      w.record (.DeleteProgressTable userID) false st)
  | (none, st) =>
    let w := w.record (.DeleteProgressTable userID) true st
    match env.DeleteCredentials userID w.state with
    | (some err, st) =>
      (some (.wrapped "barsCredentialsRepo.Delete" err),
        w.record (.DeleteCredentials userID) false st)
    | (none, st) => (none, w.record (.DeleteCredentials userID) true st)

/-! ## The extraction as the specification words it

These definitions follow the specification, not the loops of the code: the
theorems below compare the two. -/

/-- Empty or whitespace-only text. -/
def blank (s : String) : Bool :=
  s.data.all isSpace

/-- Cleaning of a name: whitespace runs collapsed to one space, one trailing
space dropped, one leading space dropped. -/
def cleanText (s : String) : String :=
  let p := TrimSuffix (ReplaceAllString s)
  if HasPrefix p then Replace p else p

/-- Cleaning of a grade: the sentinel for an empty or whitespace-only cell,
the cleaned text otherwise. -/
def cleanGrade (s : String) : String :=
  if blank s then "отсутствует" else cleanText s

/-- Text of a name block without its nested child markup: the text nodes
directly below it. -/
def NameBlock.ownText (b : NameBlock) : String :=
  ⟨(b.children.filterMap fun n => match n with
    | .text d => some d.data
    | .element _ => none).flatten⟩

/-- A row with exactly 2 or exactly 4 cells. -/
def Tr.kept (r : Tr) : Bool :=
  r.td.length = 2 || r.td.length = 4

/-- The kept rows of a `tbody`, in order. -/
def Tbody.keptRows (b : Tbody) : List Tr :=
  b.tr.filter Tr.kept

/-- A row whose first cell is empty or whitespace-only. -/
def Tr.blankName (r : Tr) : Bool :=
  blank (r.td.headD "")

/-- The control event of a kept row: cleaned first cell, cleaned last cell
or sentinel. -/
def specEvent (r : Tr) : ControlEvent :=
  { Name := cleanText (r.td.headD ""), Grade := cleanGrade (r.td.getLastD "") }

/-- The control events of a `tbody`. -/
def specEvents (b : Tbody) : List ControlEvent :=
  b.keptRows.map specEvent

/-- The discipline of a `tbody` before its name is assigned. -/
def unnamedDiscipline (b : Tbody) : Discipline :=
  { Name := "", ControlEvents := specEvents b }

/-- The discipline of a name block and a `tbody`. -/
def specDiscipline (name : NameBlock) (b : Tbody) : Discipline :=
  { Name := cleanText name.ownText, ControlEvents := specEvents b }

/-- Disciplines with the names of a list put on them, position by position;
disciplines beyond the list keep their name. -/
def withNames : List Discipline → List String → List Discipline
  | d :: ds, n :: ns => { d with Name := n } :: withNames ds ns
  | ds, [] => ds
  | [], _ :: _ => []

/-! ## What a log of calls says about persistence -/

/-- Some `Save` of the credential store returned without error: a credentials
row has been persisted. -/
def savedCredentials (trace : List (Call × Bool)) : Bool :=
  trace.any fun x => match x with
    | (.SaveCredentials _, true) => true
    | _ => false

/-- Some `Save` of the progress-table store returned without error: a
progress-table row has been persisted. -/
def savedTable (trace : List (Call × Bool)) : Bool :=
  trace.any fun x => match x with
    | (.SaveProgressTable _, true) => true
    | _ => false

/-! ## An in-memory realisation of the collaborators

Used to run the operations on concrete inputs. -/

/-- In-memory stores and the clients that hold an authenticated session. -/
structure Mem where
  credentials : List BarsCredentials
  tables : List ProgressTable
  users : List User
  sessions : List Client
deriving DecidableEq, Repr

/-- Which collaborator calls fail. -/
structure Faults where
  login : Bool
  saveTable : Bool
  deleteTable : Bool
  deleteCredentials : Bool
deriving DecidableEq, Repr

/-- Stores with replace-on-save and idempotent delete, a portal that serves
`page` to an authenticated client, and the failures chosen by `faults`. -/
def memEnv (page : Document) (faults : Faults) : Env Mem where
  GetByUserID uid m := (.ok (m.credentials.find? fun c => c.UserID = uid), m)
  SaveCredentials c m :=
    (none, { m with credentials := c :: m.credentials.filter fun r => r.UserID ≠ c.UserID })
  DeleteCredentials uid m :=
    if faults.deleteCredentials then (some (.external "store"), m)
    else (none, { m with credentials := m.credentials.filter fun r => r.UserID ≠ uid })
  SaveUser u m := (none, { m with users := u :: m.users.filter fun r => r ≠ u })
  SaveProgressTable pt m :=
    if faults.saveTable then (some (.external "store"), m)
    else
      match pt with
      | none => (none, m)
      | some t => (none, { m with tables := t :: m.tables.filter fun r => r.UserID ≠ t.UserID })
  DeleteProgressTable uid m :=
    if faults.deleteTable then (some (.external "store"), m)
    else (none, { m with tables := m.tables.filter fun r => r.UserID ≠ uid })
  NewClient m := (0, m)
  ClientAuthorization c _ _ m :=
    if faults.login then (some (.external "auth"), m)
    else (none, { m with sessions := c :: m.sessions })
  MakeRequest c m :=
    if c ∈ m.sessions then (.ok "", m) else (.error (.external "transport"), m)
  Clear c m := { m with sessions := m.sessions.filter fun r => r ≠ c }
  NewDocumentFromReader _ := .ok page
  Encrypt _ password := .ok password.reverse
  validString _ := true

/-- The page of the worked example: one `tbody` with the kept rows
`["Exam", "5"]` and `["Quiz", ""]`, one name block reading `"  Math \n "`. -/
def mathPage : Document :=
  { mark := 1,
    tbody := [{ tr := [{ td := ["Exam", "5"] }, { td := ["Quiz", ""] }] }],
    names := [{ children := [.text "  Math \n "] }] }

/-- The discipline the worked example expects. -/
def mathDiscipline : Discipline :=
  { Name := "Math", ControlEvents := [⟨"Exam", "5"⟩, ⟨"Quiz", "отсутствует"⟩] }

/-- The page of the worked example with the marker element taken out. -/
def unmarkedPage : Document :=
  { mathPage with mark := 0 }

/-- A grade page whose second `tbody` has, after a header row and a valid
row, a kept row with a whitespace-only first cell. -/
def blankRowPage : Document :=
  { mark := 1,
    tbody := [
      { tr := [{ td := ["Exam", "5"] }] },
      { tr := [{ td := ["Control event"] }, { td := ["Test", "4"] }, { td := [" \t", "3"] },
        { td := ["Lab", "5"] }] },
      { tr := [{ td := ["", "2"] }] }],
    names := [{ children := [.text "Math"] }, { children := [.text "Physics"] },
      { children := [.text "Chemistry"] }] }

/-- A grade page with one `tbody` and no discipline-name block. -/
def missingNamePage : Document :=
  { mathPage with names := [] }

/-- A grade page with one `tbody` and three discipline-name blocks, the third
one whitespace-only. -/
def extraNamesPage : Document :=
  { mathPage with
    names := [{ children := [.text "Math"] }, { children := [.text "Physics"] },
      { children := [.text " "] }] }

/-- No collaborator call fails. -/
def noFaults : Faults :=
  { login := false, saveTable := false, deleteTable := false, deleteCredentials := false }

/-- The portal rejects the login. -/
def loginFails : Faults :=
  { noFaults with login := true }

/-- The progress-table store fails to save. -/
def saveTableFails : Faults :=
  { noFaults with saveTable := true }

/-- The progress-table store fails to delete. -/
def deleteTableFails : Faults :=
  { noFaults with deleteTable := true }

/-- The credentials a user supplies in the examples. -/
def sampleCredentials : BarsCredentials :=
  { UserID := 42, Username := "student", Password := [112, 119] }

/-- The service of the examples. -/
def sampleSvc : svc :=
  { cfg := { EncryptionKey := "key" }, barsClient := 7 }

/-- A world without any row and without a session. -/
def emptyMem : Mem :=
  { credentials := [], tables := [], users := [], sessions := [] }

/-- A world in which user 42 is already authorized. -/
def authorizedMem : Mem :=
  { credentials := [{ UserID := 42, Username := "student", Password := [119, 112] }],
    tables := [⟨42, [mathDiscipline]⟩], users := [⟨42⟩], sessions := [] }

/-! ## The cleaning of a name and of a grade, as the callbacks compute it -/

/-- The value `processedName` of `extractDisciplineNames` before the emptiness
test, which is also the value `tdCallback` stores in `controlEvent.Name`:
`ReplaceAllString`, `TrimSuffix`, then `Replace` under `HasPrefix`. -/
def processedName (text : String) : String :=
  let processedName := ReplaceAllString text
  let processedName := TrimSuffix processedName
  if HasPrefix processedName then Replace processedName else processedName

/-- The value `tdCallback` stores in `controlEvent.Grade` for the last cell. -/
def processedGrade (text : String) : String :=
  let processedData := TrimSuffix (ReplaceAllString text)
  if isEmptyData processedData then "отсутствует"
  else if HasPrefix processedData then Replace processedData
  else processedData

/-- Every whitespace character of the text is a single space that follows no
other whitespace character; `afterSpace` tells that a whitespace character
stands right before the text. -/
def collapsed : Bool → List Char → Bool
  | _, [] => true
  | afterSpace, c :: cs =>
    if isSpace c then c = ' ' && !afterSpace && collapsed true cs else collapsed false cs

/-- Some call of the log is a `Clear` of a session client. -/
def cleared (trace : List (Call × Bool)) : Bool :=
  trace.any fun x => match x with
    | (.Clear _, _) => true
    | _ => false

/-- A grade page with one `tbody` and the name blocks "", "Math", "Physics":
two non-empty name blocks, the first block empty. -/
def blankFirstNamePage : Document :=
  { mathPage with
    names := [{ children := [] }, { children := [.text "Math"] },
      { children := [.text "Physics"] }] }

/-- A grade page with one `tbody` whose kept row has an empty first cell, and
the name blocks "Math", "Physics". -/
def blankRowTwoNamesPage : Document :=
  { mark := 1,
    tbody := [{ tr := [{ td := ["", "5"] }] }],
    names := [{ children := [.text "Math"] }, { children := [.text "Physics"] }] }

/-- A grade page with one `tbody`, valid rows, and the name blocks "Math",
"Physics". -/
def twoNamesPage : Document :=
  { mathPage with
    names := [{ children := [.text "Math"] }, { children := [.text "Physics"] }] }

end bars

namespace bars_credential

open bars

/-- Body of the source method `Authorization` of
`internal/service/bars_credential`, before the deferred calls; the store's
`Get` is the handler `GetByUserID`. -/
def Authorization.body {σ : Type} (env : Env σ) (s : svc) (credentials : BarsCredentials)
    (w : World σ) : Option Error × BarsCredentials × World σ :=
  match env.GetByUserID credentials.UserID w.state with
  | (.error err, st) =>
    (some (.wrapped "barsCredentialsRepo.Get" err), credentials,
      w.record (.GetByUserID credentials.UserID) false st)
  | (.ok (some _), st) =>
    (some .ErrAlreadyAuth, credentials, w.record (.GetByUserID credentials.UserID) true st)
  | (.ok none, st) =>
    let w := w.record (.GetByUserID credentials.UserID) true st
    match env.ClientAuthorization s.barsClient credentials.Username credentials.Password
      w.state with
    | (some err, st) =>
      (some (.wrapped "barsClient.Authorization" err), credentials,
        w.record (.ClientAuthorization s.barsClient credentials.Username credentials.Password)
          false st)
    | (none, st) =>
      let w := w.record
        (.ClientAuthorization s.barsClient credentials.Username credentials.Password) true st
      match env.Encrypt s.cfg.EncryptionKey credentials.Password with
      | .error err => (some (.wrapped "aes.Encrypt (password)" err), credentials, w)
      | .ok encryptedPassword =>
        let credentials := { credentials with Password := encryptedPassword }
        match env.SaveCredentials credentials w.state with
        | (some err, st) =>
          (some (.wrapped "barsCredentialsRepo.Save" err), credentials,
            w.record (.SaveCredentials credentials) false st)
        | (none, st) => (none, credentials, w.record (.SaveCredentials credentials) true st)

/-- The source method `Authorization` of `internal/service/bars_credential`:
the body, then the deferred `s.barsClient.Clear(ctx)`. -/
def Authorization {σ : Type} (env : Env σ) (s : svc) (credentials : BarsCredentials)
    (w : World σ) : Option Error × BarsCredentials × World σ :=
  match Authorization.body env s credentials w with
  | (r, credentials, w) =>
    (r, credentials, w.record (.Clear s.barsClient) true (env.Clear s.barsClient w.state))

end bars_credential

namespace bars

/-! ## Lemmas on the string helpers -/

theorem isEmptyData_mk (l : List Char) : isEmptyData ⟨l⟩ = (l = [] || l = [' ']) := by
  simp [isEmptyData, String.ext_iff]

theorem replaceRuns_true_of_all (l : List Char) (h : l.all isSpace = true) :
    replaceRuns true l = [] := by
  induction l with
  | nil => rfl
  | cons c cs ih =>
    simp only [List.all_cons, Bool.and_eq_true] at h
    simp [replaceRuns, h.1, ih h.2]

theorem mem_replaceRuns (c : Char) (hc : isSpace c = false) :
    ∀ (b : Bool) (l : List Char), c ∈ l → c ∈ replaceRuns b l := by
  intro b l
  induction l generalizing b with
  | nil => intro h; cases h
  | cons d ds ih =>
    intro h
    rcases List.mem_cons.1 h with rfl | h
    · simp [replaceRuns, hc]
    · unfold replaceRuns
      split
      · split
        · exact ih _ h
        · exact List.mem_cons_of_mem _ (ih _ h)
      · exact List.mem_cons_of_mem _ (ih _ h)

theorem isSpace_space : isSpace ' ' = true := by decide

theorem trim_replace_of_blank (s : String) (h : blank s = true) :
    TrimSuffix (ReplaceAllString s) = "" := by
  obtain ⟨l⟩ := s
  cases l with
  | nil => rfl
  | cons c cs =>
    simp only [blank, List.all_cons, Bool.and_eq_true] at h
    have h2 := replaceRuns_true_of_all cs h.2
    simp [TrimSuffix, ReplaceAllString, replaceRuns, h.1, h2, String.ext_iff]

/-- Text that holds a character other than the space is neither `""` nor `" "`. -/
theorem isEmptyData_of_mem (t : String) (c : Char) (hc : c ∈ t.data) (hne : c ≠ ' ') :
    isEmptyData t = false := by
  obtain ⟨m⟩ := t
  rw [isEmptyData_mk]
  simp only at hc
  cases m with
  | nil => cases hc
  | cons d ds =>
    cases ds with
    | nil =>
      have : c = d := List.mem_singleton.1 hc
      subst this
      simp [hne]
    | cons e es => simp

/-- Collapsing and trimming keeps a character that is not whitespace. -/
theorem exists_mem_trim_replace (s : String) (hb : blank s = false) :
    ∃ c : Char, c ∈ (TrimSuffix (ReplaceAllString s)).data ∧ c ≠ ' ' := by
  obtain ⟨l⟩ := s
  have hex : ∃ c ∈ l, isSpace c = false := by
    simpa [blank] using hb
  obtain ⟨c, hcl, hc⟩ := hex
  have hcne : c ≠ ' ' := by
    rintro rfl
    rw [isSpace_space] at hc
    cases hc
  have hmem : c ∈ replaceRuns false l := mem_replaceRuns c hc false l hcl
  refine ⟨c, ?_, hcne⟩
  unfold TrimSuffix ReplaceAllString
  split
  · rename_i hlast
    simp only at hlast ⊢
    have hne : replaceRuns false l ≠ [] := List.ne_nil_of_mem hmem
    have hsplit := List.dropLast_append_getLast hne
    rw [← hsplit] at hmem
    rcases List.mem_append.1 hmem with h | h
    · exact h
    · exfalso
      have hl : (replaceRuns false l).getLast hne = ' ' := by
        rw [List.getLast?_eq_getLast _ hne] at hlast
        exact Option.some.inj hlast
      rw [hl] at h
      exact hcne (List.mem_singleton.1 h)
  · exact hmem

theorem isEmptyData_trim_replace (s : String) :
    isEmptyData (TrimSuffix (ReplaceAllString s)) = blank s := by
  cases hb : blank s with
  | true => rw [trim_replace_of_blank s hb]; rfl
  | false =>
    obtain ⟨c, hc, hne⟩ := exists_mem_trim_replace s hb
    exact isEmptyData_of_mem _ c hc hne

theorem cleanText_of_blank (s : String) (hb : blank s = true) : cleanText s = "" := by
  simp only [cleanText, trim_replace_of_blank s hb]
  rfl

theorem isEmptyData_cleanText (s : String) : isEmptyData (cleanText s) = blank s := by
  cases hb : blank s with
  | true => rw [cleanText_of_blank s hb]; rfl
  | false =>
    obtain ⟨c, hc, hne⟩ := exists_mem_trim_replace s hb
    apply isEmptyData_of_mem _ c _ hne
    simp only [cleanText]
    split
    · simp only [Replace]
      exact (List.mem_erase_of_ne hne).2 hc
    · exact hc

theorem cleanText_ne_empty (s : String) (hb : blank s = false) : cleanText s ≠ "" := by
  intro h
  have h1 := isEmptyData_cleanText s
  rw [h, hb] at h1
  cases h1

theorem cleanText_eq_empty_iff (s : String) : cleanText s = "" ↔ blank s = true := by
  constructor
  · intro h
    cases hb : blank s with
    | true => rfl
    | false => exact absurd h (cleanText_ne_empty s hb)
  · exact cleanText_of_blank s

theorem removeChildren_Text (b : NameBlock) : b.removeChildren.Text = b.ownText := by
  obtain ⟨cs⟩ := b
  apply String.ext
  simp only [NameBlock.removeChildren, NameBlock.Text, NameBlock.ownText]
  induction cs with
  | nil => rfl
  | cons n ns ih =>
    cases n with
    | text d =>
      have ht : (Node.text d).Text = d := rfl
      simp only [List.filter_cons, List.filterMap_cons, List.map_cons, List.flatten_cons, ht,
        if_true, ih]
    | element t =>
      simp only [List.filter_cons, List.filterMap_cons, Bool.false_eq_true, if_false, ih]

/-! ## The loops of `extractDisciplinesData` -/

theorem filterFunction_kept (i : Nat) (l : List Tr) :
    FilterFunction filterTrSelection i l = l.filter Tr.kept := by
  induction l generalizing i with
  | nil => rfl
  | cons r rs ih =>
    have h : filterTrSelection i r = r.kept := by
      simp [filterTrSelection, Tr.kept, Bool.or_comm]
    simp [FilterFunction, List.filter_cons, h, ih]

theorem trCallback_ok (tb i : Nat) (r : Tr) (hk : r.kept = true) (hb : r.blankName = false)
    (e : Option Error) (pt : ProgressTable) (d : Discipline) (ce : ControlEvent) :
    trCallback tb i r ⟨e, true, pt, d, ce⟩ =
      (⟨e, true, pt, ⟨d.Name, d.ControlEvents ++ [specEvent r]⟩, specEvent r⟩, true) := by
  obtain ⟨tds⟩ := r
  rcases tds with _ | ⟨a, _ | ⟨b, _ | ⟨c, _ | ⟨x, _ | ⟨y, ys⟩⟩⟩⟩⟩ <;>
    simp [Tr.kept] at hk
  · simp only [Tr.blankName, List.headD_cons] at hb
    simp [trCallback, EachWithBreak, tdCallback, isEmptyData_trim_replace, specEvent,
      cleanText, cleanGrade, hb]
  · simp only [Tr.blankName, List.headD_cons] at hb
    simp [trCallback, EachWithBreak, tdCallback, isEmptyData_trim_replace, specEvent,
      cleanText, cleanGrade, hb]

theorem trCallback_blank (tb i : Nat) (r : Tr) (hk : r.kept = true) (hb : r.blankName = true)
    (e : Option Error) (pt : ProgressTable) (d : Discipline) (ce : ControlEvent) :
    trCallback tb i r ⟨e, true, pt, d, ce⟩ =
      (⟨some (.emptyData 0 i tb), false, pt, ⟨d.Name, d.ControlEvents ++ [⟨"", ""⟩]⟩, ⟨"", ""⟩⟩,
        false) := by
  obtain ⟨tds⟩ := r
  rcases tds with _ | ⟨a, _ | ⟨b, _ | ⟨c, _ | ⟨x, _ | ⟨y, ys⟩⟩⟩⟩⟩ <;>
    simp [Tr.kept] at hk
  · simp only [Tr.blankName, List.headD_cons] at hb
    have hp := trim_replace_of_blank a hb
    have he : isEmptyData "" = true := rfl
    have hh : HasPrefix "" = false := rfl
    simp [trCallback, EachWithBreak, tdCallback, hp, he, hh]
  · simp only [Tr.blankName, List.headD_cons] at hb
    have hp := trim_replace_of_blank a hb
    have he : isEmptyData "" = true := rfl
    have hh : HasPrefix "" = false := rfl
    simp [trCallback, EachWithBreak, tdCallback, hp, he, hh]

/-- The loop over kept rows with non-blank first cells appends their control
events and goes on with the rows that follow. -/
theorem trLoop_ok (tb : Nat) (rows rest : List Tr)
    (hk : ∀ r ∈ rows, r.kept = true) (hb : ∀ r ∈ rows, r.blankName = false) :
    ∀ (i : Nat) (e : Option Error) (pt : ProgressTable) (d : Discipline) (ce : ControlEvent),
      ∃ ce' : ControlEvent,
        EachWithBreak (trCallback tb) i (rows ++ rest) ⟨e, true, pt, d, ce⟩ =
          EachWithBreak (trCallback tb) (i + rows.length) rest
            ⟨e, true, pt, ⟨d.Name, d.ControlEvents ++ rows.map specEvent⟩, ce'⟩ := by
  induction rows with
  | nil => intro i e pt d ce; exact ⟨ce, by simp⟩
  | cons r rs ih =>
    intro i e pt d ce
    have h1 := trCallback_ok tb i r (hk r (List.mem_cons_self _ _))
      (hb r (List.mem_cons_self _ _)) e pt d ce
    obtain ⟨ce', h2⟩ := ih (fun x hx => hk x (List.mem_cons_of_mem _ hx))
      (fun x hx => hb x (List.mem_cons_of_mem _ hx)) (i + 1) e pt
      ⟨d.Name, d.ControlEvents ++ [specEvent r]⟩ (specEvent r)
    refine ⟨ce', ?_⟩
    have hi : i + (r :: rs).length = i + 1 + rs.length := by
      simp only [List.length_cons]; omega
    have hl : d.ControlEvents ++ (r :: rs).map specEvent =
        (d.ControlEvents ++ [specEvent r]) ++ rs.map specEvent := by simp
    simp only at h2
    rw [hi, hl, ← h2]
    simp only [List.cons_append, EachWithBreak, h1]
    rfl

/-- The record `tbodyCallback` appends for a `tbody` whose kept rows all have a
non-blank first cell. -/
theorem tbodyCallback_ok (tb : Nat) (b : Tbody) (hb : ∀ r ∈ b.keptRows, r.blankName = false)
    (e : Option Error) (pt : ProgressTable) (d : Discipline) (ce : ControlEvent) :
    ∃ (d' : Discipline) (ce' : ControlEvent),
      tbodyCallback tb b ⟨e, true, pt, d, ce⟩ =
        (⟨e, true, ⟨pt.UserID, pt.Disciplines ++ [⟨"", specEvents b⟩]⟩, d', ce'⟩, true) := by
  have hk : ∀ r ∈ b.keptRows, r.kept = true := fun r hr => (List.mem_filter.1 hr).2
  obtain ⟨ce', h⟩ := trLoop_ok tb b.keptRows [] hk hb 0 e pt ⟨"", []⟩ ce
  simp only [List.append_nil, List.nil_append, EachWithBreak] at h
  refine ⟨⟨"", specEvents b⟩, ce', ?_⟩
  simp only [tbodyCallback, filterFunction_kept]
  have h' : EachWithBreak (trCallback tb) 0 (List.filter Tr.kept b.tr)
      ⟨e, true, pt, ⟨"", []⟩, ce⟩ = ⟨e, true, pt, ⟨"", specEvents b⟩, ce'⟩ := h
  rw [h']

/-- The record `tbodyCallback` leaves for a `tbody` whose first kept row with a
blank first cell comes after the kept rows `rpre`. -/
theorem tbodyCallback_blank (tb : Nat) (b : Tbody) (rpre rpost : List Tr) (bad : Tr)
    (hsplit : b.keptRows = rpre ++ bad :: rpost)
    (hpre : ∀ r ∈ rpre, r.blankName = false) (hbad : bad.blankName = true)
    (e : Option Error) (pt : ProgressTable) (d : Discipline) (ce : ControlEvent) :
    tbodyCallback tb b ⟨e, true, pt, d, ce⟩ =
      (⟨some (.emptyData 0 rpre.length tb), false,
        ⟨pt.UserID, pt.Disciplines ++ [⟨"", rpre.map specEvent ++ [⟨"", ""⟩]⟩]⟩,
        ⟨"", rpre.map specEvent ++ [⟨"", ""⟩]⟩, ⟨"", ""⟩⟩, false) := by
  have hk : ∀ r ∈ b.keptRows, r.kept = true := fun r hr => (List.mem_filter.1 hr).2
  have hkpre : ∀ r ∈ rpre, r.kept = true := fun r hr =>
    hk r (by rw [hsplit]; exact List.mem_append_left _ hr)
  have hkbad : bad.kept = true :=
    hk bad (by rw [hsplit]; exact List.mem_append_right _ (List.mem_cons_self _ _))
  obtain ⟨ce', h⟩ := trLoop_ok tb rpre (bad :: rpost) hkpre hpre 0 e pt ⟨"", []⟩ ce
  have h1 := trCallback_blank tb (0 + rpre.length) bad hkbad hbad e pt
    ⟨"", [] ++ rpre.map specEvent⟩ ce'
  simp only [List.nil_append, Nat.zero_add] at h1 h
  simp only [EachWithBreak, h1] at h
  have hf : List.filter Tr.kept b.tr = rpre ++ bad :: rpost := hsplit
  simp only [tbodyCallback, filterFunction_kept, hf, h]

/-- The loop over `tbody` blocks whose kept rows all have a non-blank first
cell appends their disciplines and goes on with the blocks that follow. -/
theorem tbodyLoop_ok (bs rest : List Tbody)
    (hb : ∀ b ∈ bs, ∀ r ∈ b.keptRows, r.blankName = false) :
    ∀ (i : Nat) (e : Option Error) (pt : ProgressTable) (d : Discipline) (ce : ControlEvent),
      ∃ (d' : Discipline) (ce' : ControlEvent),
        EachWithBreak tbodyCallback i (bs ++ rest) ⟨e, true, pt, d, ce⟩ =
          EachWithBreak tbodyCallback (i + bs.length) rest
            ⟨e, true, ⟨pt.UserID, pt.Disciplines ++ bs.map unnamedDiscipline⟩, d', ce'⟩ := by
  induction bs with
  | nil => intro i e pt d ce; exact ⟨d, ce, by simp⟩
  | cons b bs ih =>
    intro i e pt d ce
    obtain ⟨d1, ce1, h1⟩ := tbodyCallback_ok i b (hb b (List.mem_cons_self _ _)) e pt d ce
    obtain ⟨d2, ce2, h2⟩ := ih (fun x hx => hb x (List.mem_cons_of_mem _ hx)) (i + 1) e
      ⟨pt.UserID, pt.Disciplines ++ [⟨"", specEvents b⟩]⟩ d1 ce1
    refine ⟨d2, ce2, ?_⟩
    have hi : i + (b :: bs).length = i + 1 + bs.length := by
      simp only [List.length_cons]; omega
    have hl : pt.Disciplines ++ (b :: bs).map unnamedDiscipline =
        (pt.Disciplines ++ [⟨"", specEvents b⟩]) ++ bs.map unnamedDiscipline := by
      simp [unnamedDiscipline]
    simp only at h2
    rw [hi, hl, ← h2]
    simp only [List.cons_append, EachWithBreak, h1]
    rfl

theorem extractDisciplinesData_ok (doc : Document) (pt : ProgressTable)
    (hb : ∀ b ∈ doc.tbody, ∀ r ∈ b.keptRows, r.blankName = false) :
    extractDisciplinesData doc pt =
      (⟨pt.UserID, pt.Disciplines ++ doc.tbody.map unnamedDiscipline⟩, none) := by
  obtain ⟨d', ce', h⟩ := tbodyLoop_ok doc.tbody [] hb 0 none pt ⟨"", []⟩ ⟨"", ""⟩
  simp only [List.append_nil, EachWithBreak] at h
  simp only [extractDisciplinesData, h]

theorem extractDisciplinesData_blank (doc : Document) (pt : ProgressTable)
    (pre post : List Tbody) (b : Tbody) (rpre rpost : List Tr) (bad : Tr)
    (hdoc : doc.tbody = pre ++ b :: post) (hrows : b.keptRows = rpre ++ bad :: rpost)
    (hpre : ∀ b' ∈ pre, ∀ r ∈ b'.keptRows, r.blankName = false)
    (hrpre : ∀ r ∈ rpre, r.blankName = false) (hbad : bad.blankName = true) :
    extractDisciplinesData doc pt =
      (⟨pt.UserID, pt.Disciplines ++ pre.map unnamedDiscipline ++
          [⟨"", rpre.map specEvent ++ [⟨"", ""⟩]⟩]⟩,
        some (.emptyData 0 rpre.length pre.length)) := by
  obtain ⟨d', ce', h⟩ := tbodyLoop_ok pre (b :: post) hpre 0 none pt ⟨"", []⟩ ⟨"", ""⟩
  have h1 := tbodyCallback_blank (0 + pre.length) b rpre rpost bad hrows hrpre hbad none
    ⟨pt.UserID, pt.Disciplines ++ pre.map unnamedDiscipline⟩ d' ce'
  simp only [Nat.zero_add] at h1 h
  simp only [EachWithBreak, h1] at h
  simp only [extractDisciplinesData, hdoc, h]

/-- A list with an element satisfying `p` splits at the first such element. -/
theorem exists_first_split {α : Type} (p : α → Bool) :
    ∀ l : List α, (∃ x ∈ l, p x = true) →
      ∃ (pre : List α) (x : α) (post : List α),
        l = pre ++ x :: post ∧ (∀ y ∈ pre, p y = false) ∧ p x = true := by
  intro l
  induction l with
  | nil => rintro ⟨x, hx, _⟩; cases hx
  | cons a as ih =>
    intro h
    cases hpa : p a with
    | true =>
      refine ⟨[], a, as, rfl, ?_, hpa⟩
      intro y hy
      cases hy
    | false =>
      have h' : ∃ x ∈ as, p x = true := by
        obtain ⟨x, hx, hpx⟩ := h
        rcases List.mem_cons.1 hx with rfl | hx
        · rw [hpa] at hpx; cases hpx
        · exact ⟨x, hx, hpx⟩
      obtain ⟨pre, x, post, hl, hpre, hx⟩ := ih h'
      refine ⟨a :: pre, x, post, by rw [hl]; rfl, ?_, hx⟩
      intro y hy
      rcases List.mem_cons.1 hy with rfl | hy
      · exact hpa
      · exact hpre y hy

/-! ## The loop of `extractDisciplineNames` -/

theorem setName_append (done : List Discipline) (d : Discipline) (todo : List Discipline)
    (name : String) :
    setName (done ++ d :: todo) done.length name =
      some (done ++ { d with Name := name } :: todo) := by
  induction done with
  | nil => rfl
  | cons x xs ih => simp [setName, ih]

theorem setName_none (ds : List Discipline) (i : Nat) (name : String) (h : ds.length ≤ i) :
    setName ds i name = none := by
  induction ds generalizing i with
  | nil => rfl
  | cons x xs ih =>
    cases i with
    | zero => simp at h
    | succ j =>
      have hj : xs.length ≤ j := by simpa using h
      simp [setName, ih j hj]

theorem nameCallback_eq (i : Nat) (n : NameBlock) (s : NamesState) :
    nameCallback i n s =
      if blank n.Text then ({ s with err := some (.emptyName i) }, false)
      else
        match setName s.pt.Disciplines i (cleanText n.Text) with
        | none => ({ s with panic := some (.indexOutOfRange i s.pt.Disciplines.length) }, false)
        | some ds => ({ s with pt := { s.pt with Disciplines := ds } }, true) := by
  rw [← isEmptyData_cleanText]
  rfl

/-- The loop over non-blank names that fit the table writes them, position by
position, and goes on with the names that follow. -/
theorem namesLoop_ok (names rest : List NameBlock) (hne : ∀ n ∈ names, blank n.Text = false) :
    ∀ (done todo : List Discipline) (uid : Int), names.length ≤ todo.length →
      EachWithBreak nameCallback done.length (names ++ rest) ⟨none, ⟨uid, done ++ todo⟩, none⟩ =
        EachWithBreak nameCallback (done.length + names.length) rest
          ⟨none, ⟨uid, done ++ withNames todo (names.map fun n => cleanText n.Text)⟩, none⟩ := by
  induction names with
  | nil =>
    intro done todo uid _
    cases todo <;> simp [withNames]
  | cons n ns ih =>
    intro done todo uid hlen
    cases todo with
    | nil => simp at hlen
    | cons d todo =>
      have hn : blank n.Text = false := hne n (List.mem_cons_self _ _)
      have h1 : nameCallback done.length n ⟨none, ⟨uid, done ++ d :: todo⟩, none⟩ =
          (⟨none, ⟨uid, (done ++ [{ d with Name := cleanText n.Text }]) ++ todo⟩, none⟩, true) := by
        rw [nameCallback_eq]
        simp [hn, setName_append]
      have h2 := ih (fun x hx => hne x (List.mem_cons_of_mem _ hx))
        (done ++ [{ d with Name := cleanText n.Text }]) todo uid (by simpa using hlen)
      have hi : done.length + (n :: ns).length =
          (done ++ [{ d with Name := cleanText n.Text }]).length + ns.length := by
        simp only [List.length_cons, List.length_append, List.length_nil]; omega
      have hl : done ++ withNames (d :: todo) ((n :: ns).map fun n => cleanText n.Text) =
          (done ++ [{ d with Name := cleanText n.Text }]) ++
            withNames todo (ns.map fun n => cleanText n.Text) := by
        simp [withNames]
      have hd : (done ++ [{ d with Name := cleanText n.Text }]).length = done.length + 1 := by
        simp
      rw [hi, hl, ← h2, hd]
      simp only [List.cons_append, EachWithBreak, h1]
      rfl

theorem length_withNames (ds : List Discipline) :
    ∀ names : List String, names.length ≤ ds.length → (withNames ds names).length = ds.length := by
  induction ds with
  | nil => intro names h; cases names <;> simp [withNames] at h ⊢
  | cons d ds ih =>
    intro names h
    cases names with
    | nil => simp [withNames]
    | cons n ns =>
      have h' : ns.length ≤ ds.length := by simpa using h
      simp [withNames, ih ns h']

theorem map_removeChildren_clean (names : List NameBlock) :
    (names.map NameBlock.removeChildren).map (fun n => cleanText n.Text) =
      names.map fun n => cleanText n.ownText := by
  simp [List.map_map, Function.comp_def, removeChildren_Text]

theorem blank_removeChildren (names : List NameBlock)
    (h : ∀ n ∈ names, blank n.ownText = false) :
    ∀ n ∈ names.map NameBlock.removeChildren, blank n.Text = false := by
  intro n hn
  obtain ⟨m, hm, rfl⟩ := List.mem_map.1 hn
  rw [removeChildren_Text]
  exact h m hm

theorem extractDisciplineNames_ok (doc : Document) (pt : ProgressTable)
    (hne : ∀ n ∈ doc.names, blank n.ownText = false)
    (hlen : doc.names.length ≤ pt.Disciplines.length) :
    extractDisciplineNames doc pt =
      .ok (⟨pt.UserID, withNames pt.Disciplines (doc.names.map fun n => cleanText n.ownText)⟩,
        none) := by
  obtain ⟨uid, ds⟩ := pt
  have h := namesLoop_ok (doc.names.map NameBlock.removeChildren) []
    (blank_removeChildren doc.names hne) [] ds uid (by simpa using hlen)
  simp only [List.append_nil, List.nil_append, List.length_nil, EachWithBreak,
    map_removeChildren_clean] at h
  simp only [extractDisciplineNames, h]

theorem extractDisciplineNames_blank (doc : Document) (pt : ProgressTable)
    (npre npost : List NameBlock) (bad : NameBlock) (hdoc : doc.names = npre ++ bad :: npost)
    (hpre : ∀ n ∈ npre, blank n.ownText = false) (hbad : blank bad.ownText = true)
    (hlen : npre.length ≤ pt.Disciplines.length) :
    extractDisciplineNames doc pt =
      .ok (⟨pt.UserID, withNames pt.Disciplines (npre.map fun n => cleanText n.ownText)⟩,
        some (.emptyName npre.length)) := by
  obtain ⟨uid, ds⟩ := pt
  have h := namesLoop_ok (npre.map NameBlock.removeChildren)
    (bad.removeChildren :: npost.map NameBlock.removeChildren)
    (blank_removeChildren npre hpre) [] ds uid (by simpa using hlen)
  have hb : blank bad.removeChildren.Text = true := by rw [removeChildren_Text]; exact hbad
  simp only [List.nil_append, List.length_nil, Nat.zero_add, List.length_map,
    map_removeChildren_clean, EachWithBreak, nameCallback_eq, hb, if_true] at h
  simp only [extractDisciplineNames, hdoc, List.map_append, List.map_cons, h]

theorem extractDisciplineNames_panic (doc : Document) (pt : ProgressTable)
    (npre npost : List NameBlock) (n : NameBlock) (hdoc : doc.names = npre ++ n :: npost)
    (hpre : ∀ n ∈ npre, blank n.ownText = false) (hn : blank n.ownText = false)
    (hlen : npre.length = pt.Disciplines.length) :
    extractDisciplineNames doc pt = .error (.indexOutOfRange npre.length npre.length) := by
  obtain ⟨uid, ds⟩ := pt
  have hlen' : npre.length = ds.length := hlen
  have h := namesLoop_ok (npre.map NameBlock.removeChildren)
    (n.removeChildren :: npost.map NameBlock.removeChildren)
    (blank_removeChildren npre hpre) [] ds uid (by simp [hlen'])
  have hb : blank n.removeChildren.Text = false := by rw [removeChildren_Text]; exact hn
  have hl : (withNames ds (npre.map fun n => cleanText n.ownText)).length = npre.length := by
    rw [length_withNames ds _ (by simp [hlen']), hlen']
  have hs : setName (withNames ds (npre.map fun n => cleanText n.ownText)) npre.length
      (cleanText n.removeChildren.Text) = none := setName_none _ _ _ (by rw [hl])
  simp only [List.nil_append, List.length_nil, Nat.zero_add, List.length_map,
    map_removeChildren_clean, EachWithBreak, nameCallback_eq, hb, hs, hl] at h
  simp only [extractDisciplineNames, hdoc, List.map_append, List.map_cons, h]
  rfl

/-! ## The four ways `extractProgressTable` ends on a grade page -/

/-- The name blocks of a document against a table of `k` disciplines: all
non-blank and at most `k`; or a first blank one at a position up to `k`; or
more than `k` non-blank ones before any blank one. -/
theorem names_cases (names : List NameBlock) :
    ∀ k : Nat,
      ((∀ n ∈ names, blank n.ownText = false) ∧ names.length ≤ k) ∨
      (∃ (npre : List NameBlock) (bad : NameBlock) (npost : List NameBlock),
        names = npre ++ bad :: npost ∧ (∀ n ∈ npre, blank n.ownText = false) ∧
          blank bad.ownText = true ∧ npre.length ≤ k) ∨
      (∃ (npre : List NameBlock) (n : NameBlock) (npost : List NameBlock),
        names = npre ++ n :: npost ∧ (∀ n ∈ npre, blank n.ownText = false) ∧
          blank n.ownText = false ∧ npre.length = k) := by
  induction names with
  | nil =>
    intro k
    left
    exact ⟨by simp, Nat.zero_le _⟩
  | cons a as ih =>
    intro k
    cases ha : blank a.ownText with
    | true =>
      right; left
      exact ⟨[], a, as, rfl, by simp, ha, Nat.zero_le _⟩
    | false =>
      have hcons : ∀ l : List NameBlock, (∀ n ∈ l, blank n.ownText = false) →
          ∀ n ∈ a :: l, blank n.ownText = false := by
        intro l hl n hn
        rcases List.mem_cons.1 hn with rfl | hn
        · exact ha
        · exact hl n hn
      cases k with
      | zero =>
        right; right
        exact ⟨[], a, as, rfl, by simp, ha, rfl⟩
      | succ k =>
        rcases ih k with ⟨h1, h2⟩ | ⟨npre, bad, npost, h1, h2, h3, h4⟩ |
          ⟨npre, n, npost, h1, h2, h3, h4⟩
        · left
          exact ⟨hcons as h1, by simpa using h2⟩
        · right; left
          refine ⟨a :: npre, bad, npost, by rw [h1]; rfl, hcons npre h2, h3, ?_⟩
          simpa using h4
        · right; right
          refine ⟨a :: npre, n, npost, by rw [h1]; rfl, hcons npre h2, h3, ?_⟩
          simpa using h4

/-- A document with a kept row whose first cell is blank splits at the first
such row. -/
theorem exists_first_blank_row (tbodies : List Tbody)
    (h : ∃ b ∈ tbodies, ∃ r ∈ b.keptRows, r.blankName = true) :
    ∃ (pre : List Tbody) (b : Tbody) (post : List Tbody) (rpre : List Tr) (bad : Tr)
      (rpost : List Tr),
      tbodies = pre ++ b :: post ∧ b.keptRows = rpre ++ bad :: rpost ∧
        (∀ b' ∈ pre, ∀ r ∈ b'.keptRows, r.blankName = false) ∧
        (∀ r ∈ rpre, r.blankName = false) ∧ bad.blankName = true := by
  have h' : ∃ b ∈ tbodies, (fun b : Tbody => b.keptRows.any Tr.blankName) b = true := by
    obtain ⟨b, hb, r, hr, hbl⟩ := h
    exact ⟨b, hb, List.any_eq_true.2 ⟨r, hr, hbl⟩⟩
  obtain ⟨pre, b, post, hsplit, hpre, hb⟩ := exists_first_split _ tbodies h'
  have hb' : ∃ r ∈ b.keptRows, Tr.blankName r = true := List.any_eq_true.1 hb
  obtain ⟨rpre, bad, rpost, hrows, hrpre, hbad⟩ := exists_first_split _ b.keptRows hb'
  refine ⟨pre, b, post, rpre, bad, rpost, hsplit, hrows, ?_, hrpre, hbad⟩
  intro b' hb' r hr
  have := hpre b' hb'
  cases hbl : r.blankName with
  | false => rfl
  | true =>
    have hany : b'.keptRows.any Tr.blankName = true := List.any_eq_true.2 ⟨r, hr, hbl⟩
    simp only at this
    rw [hany] at this
    cases this

theorem extractProgressTable_blank_row (validString : ProgressTable → Bool) (doc : Document)
    (hpage : isGradePage doc = true)
    (pre post : List Tbody) (b : Tbody) (rpre rpost : List Tr) (bad : Tr)
    (hdoc : doc.tbody = pre ++ b :: post) (hrows : b.keptRows = rpre ++ bad :: rpost)
    (hpre : ∀ b' ∈ pre, ∀ r ∈ b'.keptRows, r.blankName = false)
    (hrpre : ∀ r ∈ rpre, r.blankName = false) (hbad : bad.blankName = true) :
    extractProgressTable validString doc =
      .ok (none, some (.wrapped "extractDisciplinesData"
        (.emptyData 0 rpre.length pre.length))) := by
  have h := extractDisciplinesData_blank doc ⟨0, []⟩ pre post b rpre rpost bad hdoc hrows hpre
    hrpre hbad
  simp only [extractProgressTable, hpage, h]
  rfl

theorem extractProgressTable_blank_name (validString : ProgressTable → Bool) (doc : Document)
    (hpage : isGradePage doc = true)
    (hrows : ∀ b ∈ doc.tbody, ∀ r ∈ b.keptRows, r.blankName = false)
    (npre npost : List NameBlock) (bad : NameBlock) (hdoc : doc.names = npre ++ bad :: npost)
    (hpre : ∀ n ∈ npre, blank n.ownText = false) (hbad : blank bad.ownText = true)
    (hlen : npre.length ≤ doc.tbody.length) :
    extractProgressTable validString doc =
      .ok (none, some (.wrapped "extractDisciplineNames" (.emptyName npre.length))) := by
  have h1 := extractDisciplinesData_ok doc ⟨0, []⟩ hrows
  have h2 := extractDisciplineNames_blank doc ⟨0, [] ++ doc.tbody.map unnamedDiscipline⟩
    npre npost bad hdoc hpre hbad (by simpa using hlen)
  simp only [extractProgressTable, hpage, h1, h2]
  rfl

theorem extractProgressTable_panic (validString : ProgressTable → Bool) (doc : Document)
    (hpage : isGradePage doc = true)
    (hrows : ∀ b ∈ doc.tbody, ∀ r ∈ b.keptRows, r.blankName = false)
    (npre npost : List NameBlock) (n : NameBlock) (hdoc : doc.names = npre ++ n :: npost)
    (hpre : ∀ n ∈ npre, blank n.ownText = false) (hn : blank n.ownText = false)
    (hlen : npre.length = doc.tbody.length) :
    extractProgressTable validString doc =
      .error (.indexOutOfRange doc.tbody.length doc.tbody.length) := by
  have h1 := extractDisciplinesData_ok doc ⟨0, []⟩ hrows
  have h2 := extractDisciplineNames_panic doc ⟨0, [] ++ doc.tbody.map unnamedDiscipline⟩
    npre npost n hdoc hpre hn (by simpa using hlen)
  simp only [extractProgressTable, hpage, h1, h2, hlen]
  rfl

theorem extractProgressTable_names_ok (validString : ProgressTable → Bool) (doc : Document)
    (hpage : isGradePage doc = true)
    (hrows : ∀ b ∈ doc.tbody, ∀ r ∈ b.keptRows, r.blankName = false)
    (hnames : ∀ n ∈ doc.names, blank n.ownText = false)
    (hlen : doc.names.length ≤ doc.tbody.length) :
    extractProgressTable validString doc =
      if validString ⟨0, withNames (doc.tbody.map unnamedDiscipline)
          (doc.names.map fun n => cleanText n.ownText)⟩ then
        .ok (some ⟨0, withNames (doc.tbody.map unnamedDiscipline)
          (doc.names.map fun n => cleanText n.ownText)⟩, none)
      else .ok (none, some (.wrapped "validateProgressTable" .notUtf8)) := by
  have h1 := extractDisciplinesData_ok doc ⟨0, []⟩ hrows
  have h2 := extractDisciplineNames_ok doc ⟨0, [] ++ doc.tbody.map unnamedDiscipline⟩
    hnames (by simpa using hlen)
  simp only [List.nil_append] at h1 h2
  simp only [extractProgressTable, hpage, h1, h2, validateProgressTable]
  cases validString _ <;> rfl

/-- What a successful extraction tells about the document and the table. -/
theorem extractProgressTable_success (validString : ProgressTable → Bool) (doc : Document)
    (pt : ProgressTable) (h : extractProgressTable validString doc = .ok (some pt, none)) :
    isGradePage doc = true ∧
      (∀ b ∈ doc.tbody, ∀ r ∈ b.keptRows, r.blankName = false) ∧
      (∀ n ∈ doc.names, blank n.ownText = false) ∧
      doc.names.length ≤ doc.tbody.length ∧
      pt = ⟨0, withNames (doc.tbody.map unnamedDiscipline)
        (doc.names.map fun n => cleanText n.ownText)⟩ := by
  cases hpage : isGradePage doc with
  | false => simp [extractProgressTable, hpage] at h
  | true =>
    by_cases hrows : ∃ b ∈ doc.tbody, ∃ r ∈ b.keptRows, r.blankName = true
    · obtain ⟨pre, b, post, rpre, bad, rpost, h1, h2, h3, h4, h5⟩ :=
        exists_first_blank_row doc.tbody hrows
      rw [extractProgressTable_blank_row validString doc hpage pre post b rpre rpost bad
        h1 h2 h3 h4 h5] at h
      simp at h
    · have hrows' : ∀ b ∈ doc.tbody, ∀ r ∈ b.keptRows, r.blankName = false := by
        intro b hb r hr
        cases hbl : r.blankName with
        | false => rfl
        | true => exact absurd ⟨b, hb, r, hr, hbl⟩ hrows
      rcases names_cases doc.names doc.tbody.length with ⟨h1, h2⟩ |
        ⟨npre, bad, npost, h1, h2, h3, h4⟩ | ⟨npre, n, npost, h1, h2, h3, h4⟩
      · rw [extractProgressTable_names_ok validString doc hpage hrows' h1 h2] at h
        split at h
        · simp only [Except.ok.injEq, Prod.mk.injEq, Option.some.injEq, and_true] at h
          exact ⟨rfl, hrows', h1, h2, h.symm⟩
        · simp at h
      · rw [extractProgressTable_blank_name validString doc hpage hrows' npre npost bad
          h1 h2 h3 h4] at h
        simp at h
      · rw [extractProgressTable_panic validString doc hpage hrows' npre npost n
          h1 h2 h3 h4] at h
        simp at h

theorem map_events_withNames (ds : List Discipline) :
    ∀ names : List String,
      (withNames ds names).map (fun d => d.ControlEvents) = ds.map fun d => d.ControlEvents := by
  induction ds with
  | nil => intro names; cases names <;> rfl
  | cons d ds ih =>
    intro names
    cases names with
    | nil => rfl
    | cons n ns => simp [withNames, ih ns]

theorem withNames_eq_zipWith (names : List NameBlock) :
    ∀ tbodies : List Tbody, tbodies.length = names.length →
      withNames (tbodies.map unnamedDiscipline) (names.map fun n => cleanText n.ownText) =
        List.zipWith specDiscipline names tbodies := by
  induction names with
  | nil =>
    intro tbodies h
    cases tbodies with
    | nil => rfl
    | cons b bs => simp at h
  | cons n ns ih =>
    intro tbodies h
    cases tbodies with
    | nil => simp at h
    | cons b bs =>
      have h' : bs.length = ns.length := by simpa using h
      simp [withNames, unnamedDiscipline, specDiscipline, ih bs h']

theorem cleanGrade_ne_empty (s : String) : cleanGrade s ≠ "" := by
  unfold cleanGrade
  cases hb : blank s with
  | true => simp only [if_true]; decide
  | false => simpa using cleanText_ne_empty s hb

/-! ## The extraction: claims C1 to C7 -/

/-- C1: on a document without the grade-sheet marker (`isGradePage` false),
`extractProgressTable` returns `ErrWrongGradesPage` and no table, whatever the
`tbody`, row and name-block content of the document. -/
theorem extractProgressTable_wrong_page (validString : ProgressTable → Bool)
    (document : Document) (h : isGradePage document = false) :
    extractProgressTable validString document = .ok (none, some .ErrWrongGradesPage) := by
  simp [extractProgressTable, h]

theorem extractProgressTable_wrong_page_witness :
    isGradePage unmarkedPage = false ∧
      extractProgressTable (fun _ => true) unmarkedPage =
        .ok (none, some .ErrWrongGradesPage) :=
  ⟨rfl, extractProgressTable_wrong_page _ unmarkedPage rfl⟩

/-- C2: when `extractProgressTable` succeeds, the table has as many
disciplines as the document has `tbody` blocks, and discipline `i` has as many
control events as the `i`-th `tbody` has rows with exactly 2 or exactly 4
cells. -/
theorem extractProgressTable_counts (validString : ProgressTable → Bool) (document : Document)
    (pt : ProgressTable)
    (h : extractProgressTable validString document = .ok (some pt, none)) :
    pt.Disciplines.length = document.tbody.length ∧
      ∀ (i : Nat) (d : Discipline) (b : Tbody),
        pt.Disciplines[i]? = some d → document.tbody[i]? = some b →
          d.ControlEvents.length =
            (b.tr.filter fun r => r.td.length = 2 ∨ r.td.length = 4).length := by
  obtain ⟨_, _, _, hlen, hpt⟩ := extractProgressTable_success validString document pt h
  have hmap : pt.Disciplines.map (fun d => d.ControlEvents) =
      document.tbody.map specEvents := by
    rw [hpt]
    simp only [map_events_withNames, List.map_map]
    rfl
  constructor
  · have := congrArg List.length hmap
    simpa using this
  · intro i d b hd hb
    have h1 : (pt.Disciplines.map fun d => d.ControlEvents)[i]? = some d.ControlEvents := by
      simp [hd]
    have h2 : (document.tbody.map specEvents)[i]? = some (specEvents b) := by
      simp [hb]
    rw [hmap, h2] at h1
    have h3 : specEvents b = d.ControlEvents := Option.some.inj h1
    rw [← h3]
    simp only [specEvents, Tbody.keptRows, List.length_map]
    congr 1
    apply List.filter_congr
    intro r _
    simp [Tr.kept]

theorem extractProgressTable_counts_witness :
    extractProgressTable (fun _ => true) mathPage = .ok (some ⟨0, [mathDiscipline]⟩, none) ∧
      [mathDiscipline].length = mathPage.tbody.length ∧
      ∀ (i : Nat) (d : Discipline) (b : Tbody),
        [mathDiscipline][i]? = some d → mathPage.tbody[i]? = some b →
          d.ControlEvents.length =
            (b.tr.filter fun r => r.td.length = 2 ∨ r.td.length = 4).length :=
  ⟨rfl, extractProgressTable_counts (fun _ => true) mathPage ⟨0, [mathDiscipline]⟩ rfl⟩

/-- C3: on a grade page with as many `tbody` blocks as name blocks, a
successful extraction returns, position by position, the discipline whose name
is the cleaned own text of the name block and whose control events are the
(cleaned first cell, cleaned last cell or sentinel) pairs of the kept rows of
the `tbody`. -/
theorem extractProgressTable_disciplines (validString : ProgressTable → Bool)
    (document : Document) (pt : ProgressTable)
    (hlen : document.tbody.length = document.names.length)
    (h : extractProgressTable validString document = .ok (some pt, none)) :
    pt.Disciplines = List.zipWith specDiscipline document.names document.tbody := by
  obtain ⟨_, _, _, _, hpt⟩ := extractProgressTable_success validString document pt h
  rw [hpt]
  exact withNames_eq_zipWith document.names document.tbody hlen

theorem extractProgressTable_disciplines_witness :
    mathPage.tbody.length = mathPage.names.length ∧
      extractProgressTable (fun _ => true) mathPage = .ok (some ⟨0, [mathDiscipline]⟩, none) ∧
      [mathDiscipline] = List.zipWith specDiscipline mathPage.names mathPage.tbody :=
  ⟨rfl, rfl,
    extractProgressTable_disciplines (fun _ => true) mathPage ⟨0, [mathDiscipline]⟩ rfl rfl⟩

/-- C4: processing a kept row whose first cell is non-empty after cleaning
and whose last cell is empty or whitespace-only sets no error, lets the loops
go on, and appends a control event whose grade is the sentinel; and no control
event of a returned table has an empty grade. -/
theorem absent_grade_is_sentinel :
    (∀ (tbodyId trId : Nat) (tr : Tr) (err : Option Error) (pt : ProgressTable)
        (d : Discipline) (ce : ControlEvent),
        tr.kept = true → cleanText (tr.td.headD "") ≠ "" → blank (tr.td.getLastD "") = true →
          trCallback tbodyId trId tr ⟨err, true, pt, d, ce⟩ =
            (⟨err, true, pt,
              ⟨d.Name, d.ControlEvents ++ [⟨cleanText (tr.td.headD ""), "отсутствует"⟩]⟩,
              ⟨cleanText (tr.td.headD ""), "отсутствует"⟩⟩, true)) ∧
      (∀ (validString : ProgressTable → Bool) (document : Document) (pt : ProgressTable),
        extractProgressTable validString document = .ok (some pt, none) →
          ∀ d ∈ pt.Disciplines, ∀ ev ∈ d.ControlEvents, ev.Grade ≠ "") := by
  constructor
  · intro tbodyId trId tr err pt d ce hk hname hlast
    have hb : tr.blankName = false := by
      cases hbl : tr.blankName with
      | false => rfl
      | true => exact absurd (cleanText_of_blank _ hbl) hname
    rw [trCallback_ok tbodyId trId tr hk hb err pt d ce]
    simp only [specEvent, cleanGrade, hlast, if_true]
  · intro validString document pt h d hd ev hev
    obtain ⟨_, _, _, _, hpt⟩ := extractProgressTable_success validString document pt h
    have hmem : d.ControlEvents ∈ pt.Disciplines.map fun d => d.ControlEvents :=
      List.mem_map.2 ⟨d, hd, rfl⟩
    rw [hpt] at hmem
    simp only [map_events_withNames, List.map_map] at hmem
    obtain ⟨b, _, hb⟩ := List.mem_map.1 hmem
    have hb' : specEvents b = d.ControlEvents := hb
    rw [← hb'] at hev
    obtain ⟨r, _, hr⟩ := List.mem_map.1 hev
    rw [← hr]
    exact cleanGrade_ne_empty _

theorem absent_grade_is_sentinel_witness :
    trCallback 0 1 ⟨["Quiz", ""]⟩ ⟨none, true, ⟨0, []⟩, ⟨"", [⟨"Exam", "5"⟩]⟩, ⟨"Exam", "5"⟩⟩ =
        (⟨none, true, ⟨0, []⟩, ⟨"", [⟨"Exam", "5"⟩] ++ [⟨cleanText "Quiz", "отсутствует"⟩]⟩,
          ⟨cleanText "Quiz", "отсутствует"⟩⟩, true) ∧
      ∀ d ∈ [mathDiscipline], ∀ ev ∈ d.ControlEvents, ev.Grade ≠ "" :=
  ⟨absent_grade_is_sentinel.1 0 1 ⟨["Quiz", ""]⟩ none ⟨0, []⟩ ⟨"", [⟨"Exam", "5"⟩]⟩
      ⟨"Exam", "5"⟩ rfl (by decide) rfl,
    absent_grade_is_sentinel.2 (fun _ => true) mathPage ⟨0, [mathDiscipline]⟩ rfl⟩

/-- C5: on a grade page with a kept row whose first cell is empty or
whitespace-only, `extractProgressTable` returns no table and the error of
`extractDisciplinesData`, which carries cell index 0, the index of the first
such row among the kept rows of its `tbody`, and the index of that `tbody`;
the table `extractDisciplinesData` leaves behind holds the disciplines of the
blocks before, and for that block the events of the kept rows before and the
unfinished event of the row: nothing after the row is processed. -/
theorem extractProgressTable_first_blank_row (validString : ProgressTable → Bool)
    (document : Document) (hpage : isGradePage document = true)
    (h : ∃ b ∈ document.tbody, ∃ r ∈ b.keptRows, r.blankName = true) :
    ∃ (pre : List Tbody) (b : Tbody) (post : List Tbody) (rpre : List Tr) (bad : Tr)
      (rpost : List Tr),
      document.tbody = pre ++ b :: post ∧ b.keptRows = rpre ++ bad :: rpost ∧
        (∀ b' ∈ pre, ∀ r ∈ b'.keptRows, r.blankName = false) ∧
        (∀ r ∈ rpre, r.blankName = false) ∧ bad.blankName = true ∧
        extractProgressTable validString document =
          .ok (none, some (.wrapped "extractDisciplinesData"
            (.emptyData 0 rpre.length pre.length))) ∧
        extractDisciplinesData document ⟨0, []⟩ =
          (⟨0, pre.map unnamedDiscipline ++ [⟨"", rpre.map specEvent ++ [⟨"", ""⟩]⟩]⟩,
            some (.emptyData 0 rpre.length pre.length)) := by
  obtain ⟨pre, b, post, rpre, bad, rpost, h1, h2, h3, h4, h5⟩ :=
    exists_first_blank_row document.tbody h
  refine ⟨pre, b, post, rpre, bad, rpost, h1, h2, h3, h4, h5, ?_, ?_⟩
  · exact extractProgressTable_blank_row validString document hpage pre post b rpre rpost bad
      h1 h2 h3 h4 h5
  · have := extractDisciplinesData_blank document ⟨0, []⟩ pre post b rpre rpost bad
      h1 h2 h3 h4 h5
    simpa using this

theorem extractProgressTable_first_blank_row_witness :
    extractProgressTable (fun _ => true) blankRowPage =
        .ok (none, some (.wrapped "extractDisciplinesData" (.emptyData 0 1 1))) ∧
      ∃ (pre : List Tbody) (b : Tbody) (post : List Tbody) (rpre : List Tr) (bad : Tr)
        (rpost : List Tr),
        blankRowPage.tbody = pre ++ b :: post ∧ b.keptRows = rpre ++ bad :: rpost ∧
          (∀ b' ∈ pre, ∀ r ∈ b'.keptRows, r.blankName = false) ∧
          (∀ r ∈ rpre, r.blankName = false) ∧ bad.blankName = true ∧
          extractProgressTable (fun _ => true) blankRowPage =
            .ok (none, some (.wrapped "extractDisciplinesData"
              (.emptyData 0 rpre.length pre.length))) ∧
          extractDisciplinesData blankRowPage ⟨0, []⟩ =
            (⟨0, pre.map unnamedDiscipline ++ [⟨"", rpre.map specEvent ++ [⟨"", ""⟩]⟩]⟩,
              some (.emptyData 0 rpre.length pre.length)) :=
  ⟨rfl, extractProgressTable_first_blank_row (fun _ => true) blankRowPage rfl
    ⟨⟨[⟨["Control event"]⟩, ⟨["Test", "4"]⟩, ⟨[" \t", "3"]⟩, ⟨["Lab", "5"]⟩]⟩, by decide,
      ⟨[" \t", "3"]⟩, by decide, by decide⟩⟩

/-- C6 (failing input): on a grade page with one `tbody`, valid rows and the
name blocks "Math", "Physics", " ", the whitespace-only block at position 2
is never reached: writing the name at position 1 into a table of one
discipline is out of range, so the call panics instead of returning the error
for position 2. -/
theorem extractProgressTable_extra_names_panics :
    isGradePage extraNamesPage = true ∧
      (∀ b ∈ extraNamesPage.tbody, ∀ r ∈ b.keptRows, r.blankName = false) ∧
      (extraNamesPage.names.map fun n => cleanText n.ownText) = ["Math", "Physics", ""] ∧
      extractProgressTable (fun _ => true) extraNamesPage = .error (.indexOutOfRange 1 1) := by
  refine ⟨rfl, by decide, by decide, rfl⟩

/-- C7 (failing input): on a grade page with one `tbody` and no name block the
extraction succeeds and returns a discipline whose name is empty. -/
theorem extractProgressTable_missing_name :
    isGradePage missingNamePage = true ∧
      extractProgressTable (fun _ => true) missingNamePage =
        .ok (some ⟨0, [{ mathDiscipline with Name := "" }]⟩, none) := by
  exact ⟨rfl, rfl⟩

end bars

namespace bars

/-! ## The service: claims C8 to C10 -/

/-- C8: when the credential store returns a row for `credentials.UserID`, both
`Authorization` methods return `ErrAlreadyAuth`; the only collaborator calls
are the lookup and the deferred `Clear`: no login, no fetch, no save to the
user, credential or progress-table store. -/
theorem Authorization_already_auth {σ : Type} (env : Env σ) (s : svc)
    (credentials : BarsCredentials) (w : World σ) (row : BarsCredentials) (st : σ)
    (h : env.GetByUserID credentials.UserID w.state = (.ok (some row), st)) :
    Authorization env s credentials w =
        (.ok (some .ErrAlreadyAuth), credentials,
          ⟨env.Clear s.barsClient st,
            w.trace ++ [(.GetByUserID credentials.UserID, true), (.Clear s.barsClient, true)]⟩) ∧
      bars_credential.Authorization env s credentials w =
        (some .ErrAlreadyAuth, credentials,
          ⟨env.Clear s.barsClient st,
            w.trace ++ [(.GetByUserID credentials.UserID, true), (.Clear s.barsClient, true)]⟩) := by
  simp [Authorization, Authorization.body, bars_credential.Authorization,
    bars_credential.Authorization.body, h, World.record]

theorem Authorization_already_auth_witness :
    (memEnv mathPage noFaults).GetByUserID sampleCredentials.UserID authorizedMem =
        (.ok (some ⟨42, "student", [119, 112]⟩), authorizedMem) ∧
      Authorization (memEnv mathPage noFaults) sampleSvc sampleCredentials ⟨authorizedMem, []⟩ =
        (.ok (some .ErrAlreadyAuth), sampleCredentials,
          ⟨(memEnv mathPage noFaults).Clear sampleSvc.barsClient authorizedMem,
            [] ++ [(.GetByUserID sampleCredentials.UserID, true),
              (.Clear sampleSvc.barsClient, true)]⟩) ∧
      bars_credential.Authorization (memEnv mathPage noFaults) sampleSvc sampleCredentials
          ⟨authorizedMem, []⟩ =
        (some .ErrAlreadyAuth, sampleCredentials,
          ⟨(memEnv mathPage noFaults).Clear sampleSvc.barsClient authorizedMem,
            [] ++ [(.GetByUserID sampleCredentials.UserID, true),
              (.Clear sampleSvc.barsClient, true)]⟩) :=
  ⟨rfl, Authorization_already_auth (memEnv mathPage noFaults) sampleSvc sampleCredentials
    ⟨authorizedMem, []⟩ ⟨42, "student", [119, 112]⟩ authorizedMem rfl⟩

/-- C10: `Logout` deletes the progress table first.  When that delete fails,
`Logout` returns the wrapped error and the credential store's `Delete` is not
called; when it succeeds, the credential store's `Delete` is called next and
its error, if any, is returned wrapped; `Logout` returns nil exactly when
both deletes succeed. -/
theorem Logout_order {σ : Type} (env : Env σ) (userID : Int) (w : World σ) :
    (∀ (e : Error) (st : σ), env.DeleteProgressTable userID w.state = (some e, st) →
        Logout env userID w =
          (some (.wrapped "progressTableSvc.Delete" e),
            ⟨st, w.trace ++ [(.DeleteProgressTable userID, false)]⟩)) ∧
      (∀ (st : σ) (r : Option Error) (st2 : σ),
        env.DeleteProgressTable userID w.state = (none, st) →
        env.DeleteCredentials userID st = (r, st2) →
          Logout env userID w =
            (r.map (Error.wrapped "barsCredentialsRepo.Delete"),
              ⟨st2, w.trace ++
                [(.DeleteProgressTable userID, true), (.DeleteCredentials userID, r.isNone)]⟩)) ∧
      ((Logout env userID w).1 = none ↔
        (env.DeleteProgressTable userID w.state).1 = none ∧
          (env.DeleteCredentials userID (env.DeleteProgressTable userID w.state).2).1 = none) := by
  refine ⟨?_, ?_, ?_⟩
  · intro e st h
    simp [Logout, h, World.record]
  · intro st r st2 h1 h2
    cases r <;> simp [Logout, h1, h2, World.record]
  · rcases h1 : env.DeleteProgressTable userID w.state with ⟨r1, st1⟩
    cases r1 with
    | some e => simp [Logout, h1]
    | none =>
      rcases h2 : env.DeleteCredentials userID st1 with ⟨r2, st2⟩
      cases r2 <;> simp [Logout, h1, h2, World.record]

theorem Logout_order_witness :
    Logout (memEnv mathPage deleteTableFails) 42 ⟨authorizedMem, []⟩ =
        (some (.wrapped "progressTableSvc.Delete" (.external "store")),
          ⟨authorizedMem, [] ++ [(.DeleteProgressTable 42, false)]⟩) ∧
      Logout (memEnv mathPage noFaults) 42 ⟨authorizedMem, []⟩ =
        (Option.map (Error.wrapped "barsCredentialsRepo.Delete") none,
          ⟨{ emptyMem with users := [⟨42⟩] },
            [] ++ [(.DeleteProgressTable 42, true), (.DeleteCredentials 42, true)]⟩) :=
  ⟨(Logout_order (memEnv mathPage deleteTableFails) 42 ⟨authorizedMem, []⟩).1
      (.external "store") authorizedMem rfl,
    (Logout_order (memEnv mathPage noFaults) 42 ⟨authorizedMem, []⟩).2.1
      { authorizedMem with tables := [] } none { emptyMem with users := [⟨42⟩] } rfl rfl⟩

theorem saved_record {σ : Type} (w : World σ) (call : Call) (ok : Bool) (st : σ) :
    savedCredentials (w.record call ok st).trace =
        (savedCredentials w.trace || savedCredentials [(call, ok)]) ∧
      savedTable (w.record call ok st).trace =
        (savedTable w.trace || savedTable [(call, ok)]) := by
  simp [World.record, savedCredentials, savedTable, List.any_append]

/-- `getGradesPageDocument` calls no `Save`. -/
theorem getGradesPageDocument_saves {σ : Type} (env : Env σ) (c : Client) (w : World σ) :
    savedCredentials (getGradesPageDocument env c w).2.trace = savedCredentials w.trace ∧
      savedTable (getGradesPageDocument env c w).2.trace = savedTable w.trace := by
  unfold getGradesPageDocument
  rcases h1 : env.MakeRequest c w.state with ⟨r, st⟩
  cases r with
  | error e =>
    simp only [(saved_record w _ _ _).1, (saved_record w _ _ _).2]
    simp [savedCredentials, savedTable]
  | ok response =>
    simp only
    cases h2 : env.NewDocumentFromReader response with
    | error e =>
      simp only [(saved_record w _ _ _).1, (saved_record w _ _ _).2]
      simp [savedCredentials, savedTable]
    | ok document =>
      simp only
      split <;>
        (simp only [(saved_record w _ _ _).1, (saved_record w _ _ _).2]
         simp [savedCredentials, savedTable])

/-- `GetProgressTable` calls no `Save`. -/
theorem GetProgressTable_run_saves {σ : Type} (env : Env σ) (credentials : BarsCredentials)
    (c : Client) (w : World σ) :
    savedCredentials (GetProgressTable.run env credentials c w).2.trace =
        savedCredentials w.trace ∧
      savedTable (GetProgressTable.run env credentials c w).2.trace = savedTable w.trace := by
  unfold GetProgressTable.run
  rcases h1 : env.ClientAuthorization c credentials.Username credentials.Password w.state with
    ⟨r, st⟩
  cases r with
  | some e =>
    simp only [(saved_record w _ _ _).1, (saved_record w _ _ _).2]
    simp [savedCredentials, savedTable]
  | none =>
    simp only
    have hg := getGradesPageDocument_saves env c
      (w.record (.ClientAuthorization c credentials.Username credentials.Password) true st)
    simp only [(saved_record w _ _ _).1, (saved_record w _ _ _).2] at hg
    have hc : savedCredentials
        [(Call.ClientAuthorization c credentials.Username credentials.Password, true)] = false := rfl
    have ht : savedTable
        [(Call.ClientAuthorization c credentials.Username credentials.Password, true)] = false := rfl
    rw [hc, ht, Bool.or_false, Bool.or_false] at hg
    rcases hd : getGradesPageDocument env c
      (w.record (.ClientAuthorization c credentials.Username credentials.Password) true st) with
      ⟨⟨d, e⟩, w2⟩
    rw [hd] at hg
    cases d with
    | none => cases e <;> exact hg
    | some document =>
      cases e with
      | some e => exact hg
      | none =>
        simp only
        cases he : extractProgressTable env.validString document with
        | error p => exact hg
        | ok v =>
          obtain ⟨t, e⟩ := v
          cases t <;> cases e <;> exact hg

theorem GetProgressTable_saves {σ : Type} (env : Env σ) (credentials : BarsCredentials)
    (c : Client) (w : World σ) :
    savedCredentials (GetProgressTable env credentials (some c) w).2.trace =
        savedCredentials w.trace ∧
      savedTable (GetProgressTable env credentials (some c) w).2.trace = savedTable w.trace :=
  GetProgressTable_run_saves env credentials c w

theorem saved_append (t u : List (Call × Bool)) :
    savedCredentials (t ++ u) = (savedCredentials t || savedCredentials u) ∧
      savedTable (t ++ u) = (savedTable t || savedTable u) := by
  simp [savedCredentials, savedTable, List.any_append]

theorem GetProgressTable_saves_of_eq {σ : Type} (env : Env σ) (credentials : BarsCredentials)
    (c : Client) (w w' : World σ) (r : Except GoPanic (Option ProgressTable × Option Error))
    (h : GetProgressTable env credentials (some c) w = (r, w'))
    (hc : savedCredentials w.trace = false) (ht : savedTable w.trace = false) :
    savedCredentials w'.trace = false ∧ savedTable w'.trace = false := by
  have hg := GetProgressTable_saves env credentials c w
  rw [h, hc, ht] at hg
  exact hg

/-- Persistence after a run of `Authorization` that does not return nil. -/
theorem Authorization_failure_saves {σ : Type} (env : Env σ) (s : svc)
    (credentials : BarsCredentials) (st : σ)
    (hfail : (Authorization env s credentials ⟨st, []⟩).1 ≠ .ok none) :
    savedTable (Authorization env s credentials ⟨st, []⟩).2.2.trace = false ∧
      (savedCredentials (Authorization env s credentials ⟨st, []⟩).2.2.trace = true ↔
        ∃ e, (Authorization env s credentials ⟨st, []⟩).1 =
          .ok (some (.wrapped "progressTableSvc.Save" e))) := by
  revert hfail
  unfold Authorization Authorization.body
  simp only [World.record, List.nil_append]
  rcases h1 : env.GetByUserID credentials.UserID st with ⟨r1, st1⟩
  rcases r1 with e | _ | row
  · simp [savedCredentials, savedTable]
  · simp only
    rcases h2 : env.SaveUser ⟨credentials.UserID⟩ st1 with ⟨r2, st2⟩
    cases r2 with
    | some e => simp [savedCredentials, savedTable]
    | none =>
      simp only
      split
      · rename_i p wg heq
        have hg := GetProgressTable_saves_of_eq env credentials _ _ _ _ heq rfl rfl
        simp_all [savedCredentials, savedTable]
      · rename_i t e wg heq
        have hg := GetProgressTable_saves_of_eq env credentials _ _ _ _ heq rfl rfl
        simp_all [savedCredentials, savedTable]
      · rename_i t wg heq
        have hg := GetProgressTable_saves_of_eq env credentials _ _ _ _ heq rfl rfl
        cases h3 : env.Encrypt s.cfg.EncryptionKey credentials.Password with
        | error e =>
          simp_all [savedCredentials, savedTable]
        | ok enc =>
          simp only
          rcases h4 : env.SaveCredentials { credentials with Password := enc } wg.state with
            ⟨r4, st4⟩
          cases r4 with
          | some e =>
            simp_all [savedCredentials, savedTable]
          | none =>
            simp only
            rcases h5 : env.SaveProgressTable t st4 with ⟨r5, st5⟩
            cases r5 with
            | some e =>
              simp_all [savedCredentials, savedTable]
            | none => simp
  · simp [savedCredentials, savedTable]

/-- C9 (counterexample): with a progress-table store whose `Save` fails,
`Authorization` of a fresh user returns an error although the credential
store's `Save` has succeeded: the credentials row is in the store. -/
theorem Authorization_save_table_fails :
    (Authorization (memEnv mathPage saveTableFails) sampleSvc sampleCredentials
        ⟨emptyMem, []⟩).1 =
        .ok (some (.wrapped "progressTableSvc.Save" (.external "store"))) ∧
      (Authorization (memEnv mathPage saveTableFails) sampleSvc sampleCredentials
        ⟨emptyMem, []⟩).2.2.state.credentials = [⟨42, "student", [119, 112]⟩] ∧
      savedCredentials (Authorization (memEnv mathPage saveTableFails) sampleSvc
        sampleCredentials ⟨emptyMem, []⟩).2.2.trace = true := by
  exact ⟨rfl, rfl, rfl⟩

/-- C9 (amended): when `Authorization` does not return nil, no `Save` of the
progress-table store has succeeded, and a `Save` of the credential store has
succeeded exactly when the returned error is the wrapped error of the
progress-table `Save`, the last step.  When the portal login fails for a fresh
user, the returned error wraps the login failure and the only calls are the
lookup, the user save, the login and the deferred `Clear`. -/
theorem Authorization_failure_persistence {σ : Type} (env : Env σ) (s : svc)
    (credentials : BarsCredentials) (st : σ) :
    ((Authorization env s credentials ⟨st, []⟩).1 ≠ .ok none →
        savedTable (Authorization env s credentials ⟨st, []⟩).2.2.trace = false ∧
          (savedCredentials (Authorization env s credentials ⟨st, []⟩).2.2.trace = true ↔
            ∃ e, (Authorization env s credentials ⟨st, []⟩).1 =
              .ok (some (.wrapped "progressTableSvc.Save" e)))) ∧
      (∀ (e : Error) (st1 st2 st3 : σ),
        env.GetByUserID credentials.UserID st = (.ok none, st1) →
        env.SaveUser ⟨credentials.UserID⟩ st1 = (none, st2) →
        env.ClientAuthorization s.barsClient credentials.Username credentials.Password st2 =
          (some e, st3) →
          Authorization env s credentials ⟨st, []⟩ =
            (.ok (some (.wrapped "svc.GetProgressTable"
                (.wrapped "barsClient.Authorization" e))), credentials,
              ⟨env.Clear s.barsClient st3,
                [(.GetByUserID credentials.UserID, true), (.SaveUser ⟨credentials.UserID⟩, true),
                  (.ClientAuthorization s.barsClient credentials.Username credentials.Password,
                    false),
                  (.Clear s.barsClient, true)]⟩)) := by
  refine ⟨Authorization_failure_saves env s credentials st, ?_⟩
  intro e st1 st2 st3 h1 h2 h3
  simp [Authorization, Authorization.body, GetProgressTable, GetProgressTable.run, World.record,
    h1, h2, h3]

theorem Authorization_failure_persistence_witness :
    (savedTable (Authorization (memEnv mathPage saveTableFails) sampleSvc sampleCredentials
        ⟨emptyMem, []⟩).2.2.trace = false ∧
      (savedCredentials (Authorization (memEnv mathPage saveTableFails) sampleSvc
          sampleCredentials ⟨emptyMem, []⟩).2.2.trace = true ↔
        ∃ e, (Authorization (memEnv mathPage saveTableFails) sampleSvc sampleCredentials
          ⟨emptyMem, []⟩).1 = .ok (some (.wrapped "progressTableSvc.Save" e)))) ∧
      Authorization (memEnv mathPage loginFails) sampleSvc sampleCredentials ⟨emptyMem, []⟩ =
        (.ok (some (.wrapped "svc.GetProgressTable"
            (.wrapped "barsClient.Authorization" (.external "auth")))), sampleCredentials,
          ⟨(memEnv mathPage loginFails).Clear sampleSvc.barsClient
              { emptyMem with users := [⟨42⟩] },
            [(.GetByUserID sampleCredentials.UserID, true),
              (.SaveUser ⟨sampleCredentials.UserID⟩, true),
              (.ClientAuthorization sampleSvc.barsClient sampleCredentials.Username
                sampleCredentials.Password, false),
              (.Clear sampleSvc.barsClient, true)]⟩) :=
  ⟨(Authorization_failure_persistence (memEnv mathPage saveTableFails) sampleSvc
      sampleCredentials emptyMem).1
      (by
        have h : (Authorization (memEnv mathPage saveTableFails) sampleSvc sampleCredentials
            ⟨emptyMem, []⟩).1 =
            .ok (some (.wrapped "progressTableSvc.Save" (.external "store"))) := rfl
        rw [h]
        simp),
    (Authorization_failure_persistence (memEnv mathPage loginFails) sampleSvc
      sampleCredentials emptyMem).2 (.external "auth") emptyMem
      { emptyMem with users := [⟨42⟩] } { emptyMem with users := [⟨42⟩] } rfl rfl rfl⟩

/-! ## The shape of cleaned text -/

theorem collapsed_replaceRuns (l : List Char) :
    ∀ b : Bool, collapsed b (replaceRuns b l) = true := by
  induction l with
  | nil => intro b; rfl
  | cons c cs ih =>
    intro b
    cases hc : isSpace c with
    | false => simp [replaceRuns, collapsed, hc, ih false]
    | true =>
      cases b with
      | true => simp [replaceRuns, hc, ih true]
      | false => simp [replaceRuns, collapsed, hc, isSpace_space, ih true]

theorem collapsed_mono (l : List Char) (h : collapsed true l = true) :
    collapsed false l = true := by
  cases l with
  | nil => rfl
  | cons c cs =>
    cases hc : isSpace c with
    | false => simpa [collapsed, hc] using h
    | true => simp [collapsed, hc] at h

theorem replaceRuns_of_collapsed (l : List Char) :
    ∀ b : Bool, collapsed b l = true → replaceRuns b l = l := by
  induction l with
  | nil => intro b _; rfl
  | cons c cs ih =>
    intro b h
    cases hc : isSpace c with
    | false =>
      simp only [collapsed, hc, Bool.false_eq_true, if_false] at h
      simp [replaceRuns, hc, ih false h]
    | true =>
      simp only [collapsed, hc, if_true, Bool.and_eq_true, decide_eq_true_eq,
        Bool.not_eq_true'] at h
      obtain ⟨⟨h1, h2⟩, h3⟩ := h
      subst h2
      simp [replaceRuns, ih true h3, h1, isSpace_space]

theorem collapsed_dropLast (l : List Char) :
    ∀ b : Bool, collapsed b l = true → collapsed b l.dropLast = true := by
  induction l with
  | nil => intro b _; rfl
  | cons c cs ih =>
    intro b h
    cases cs with
    | nil => rfl
    | cons d ds =>
      rw [List.dropLast_cons₂]
      cases hc : isSpace c with
      | false =>
        simp only [collapsed, hc, Bool.false_eq_true, if_false] at h ⊢
        exact ih false h
      | true =>
        simp only [collapsed, hc, if_true, Bool.and_eq_true] at h ⊢
        exact ⟨h.1, ih true h.2⟩

/-- In collapsed text that ends with a space, the character before that space
is not a space. -/
theorem getLast_dropLast_of_collapsed (l : List Char) :
    ∀ b : Bool, collapsed b l = true → l.getLast? = some ' ' →
      l.dropLast.getLast? ≠ some ' ' := by
  induction l with
  | nil => intro b _ _; simp
  | cons c cs ih =>
    intro b h hl
    cases cs with
    | nil => simp
    | cons d ds =>
      cases ds with
      | nil =>
        have hd : d = ' ' := by simpa using hl
        subst hd
        cases hc : isSpace c with
        | false =>
          have hne : c ≠ ' ' := by
            rintro rfl
            rw [isSpace_space] at hc
            cases hc
          simpa using hne
        | true => simp [collapsed, hc, isSpace_space] at h
      | cons e es =>
        rw [List.dropLast_cons₂, List.dropLast_cons₂, List.getLast?_cons_cons,
          ← List.dropLast_cons₂]
        rw [List.getLast?_cons_cons] at hl
        cases hc : isSpace c with
        | false =>
          simp only [collapsed, hc, Bool.false_eq_true, if_false] at h
          exact ih false h hl
        | true =>
          simp only [collapsed, hc, if_true, Bool.and_eq_true] at h
          exact ih true h.2 hl

theorem no_double_space_of_collapsed (l : List Char) :
    ∀ (b : Bool) (pre post : List Char) (x y : Char), collapsed b l = true →
      l = pre ++ x :: y :: post → ¬(isSpace x = true ∧ isSpace y = true) := by
  induction l with
  | nil =>
    intro b pre post x y _ hl
    cases pre <;> simp at hl
  | cons c cs ih =>
    intro b pre post x y h hl
    cases pre with
    | nil =>
      simp only [List.nil_append, List.cons.injEq] at hl
      obtain ⟨rfl, rfl⟩ := hl
      rintro ⟨hx, hy⟩
      simp [collapsed, hx, hy] at h
    | cons p ps =>
      simp only [List.cons_append, List.cons.injEq] at hl
      obtain ⟨rfl, hcs⟩ := hl
      cases hc : isSpace c with
      | false =>
        simp only [collapsed, hc, Bool.false_eq_true, if_false] at h
        exact ih false ps post x y h hcs
      | true =>
        simp only [collapsed, hc, if_true, Bool.and_eq_true] at h
        exact ih true ps post x y h.2 hcs

theorem head_of_collapsed (l : List Char) (h : collapsed true l = true) :
    l.head? ≠ some ' ' := by
  cases l with
  | nil => simp
  | cons c cs =>
    intro hc
    have hc' : c = ' ' := by simpa using hc
    subst hc'
    simp [collapsed, isSpace_space] at h

theorem not_blank_of_collapsed (l : List Char) (h : collapsed true l = true) (hne : l ≠ []) :
    l.all isSpace = false := by
  cases l with
  | nil => exact absurd rfl hne
  | cons c cs =>
    cases hc : isSpace c with
    | false => simp [hc]
    | true => simp [collapsed, hc] at h

/-- Dropping one leading space from collapsed text without trailing space
leaves text without leading space, without trailing space, still collapsed. -/
theorem tidy_strip (l : List Char) (h1 : collapsed false l = true)
    (h2 : l.getLast? ≠ some ' ') :
    collapsed true (if l.head? = some ' ' then l.erase ' ' else l) = true ∧
      (if l.head? = some ' ' then l.erase ' ' else l).getLast? ≠ some ' ' := by
  cases l with
  | nil => simp [collapsed]
  | cons c cs =>
    by_cases hc : c = ' '
    · subst hc
      simp only [List.head?_cons, if_true, List.erase_cons_head]
      constructor
      · simpa [collapsed, isSpace_space] using h1
      · cases cs with
        | nil => simp
        | cons d ds =>
          rw [List.getLast?_cons_cons] at h2
          exact h2
    · have hh : ¬((c :: cs).head? = some ' ') := by simpa using hc
      simp only [hh, if_false]
      refine ⟨?_, h2⟩
      cases hs : isSpace c with
      | false => simpa [collapsed, hs] using h1
      | true =>
        simp only [collapsed, hs, if_true, Bool.and_eq_true, decide_eq_true_eq] at h1
        exact absurd h1.1.1 hc

theorem trim_replace_tidy (s : String) :
    collapsed false (TrimSuffix (ReplaceAllString s)).data = true ∧
      (TrimSuffix (ReplaceAllString s)).data.getLast? ≠ some ' ' := by
  have hr := collapsed_replaceRuns s.data false
  unfold TrimSuffix ReplaceAllString
  split
  · rename_i hl
    exact ⟨collapsed_dropLast _ false hr, getLast_dropLast_of_collapsed _ false hr hl⟩
  · rename_i hl
    exact ⟨hr, hl⟩

/-- Cleaned text is collapsed, has no leading and no trailing space. -/
theorem cleanText_tidy (s : String) :
    collapsed true (cleanText s).data = true ∧ (cleanText s).data.getLast? ≠ some ' ' := by
  obtain ⟨h1, h2⟩ := trim_replace_tidy s
  have h := tidy_strip _ h1 h2
  simp only [cleanText, HasPrefix, Replace]
  split
  · rename_i hp
    have hp' : (TrimSuffix (ReplaceAllString s)).data.head? = some ' ' := by simpa using hp
    simpa [hp'] using h
  · rename_i hp
    have hp' : ¬((TrimSuffix (ReplaceAllString s)).data.head? = some ' ') := by simpa using hp
    simpa [hp'] using h

/-- Cleaning leaves tidy text as it is. -/
theorem cleanText_of_tidy (t : String) (h1 : collapsed true t.data = true)
    (h2 : t.data.getLast? ≠ some ' ') : cleanText t = t := by
  obtain ⟨l⟩ := t
  have hr : replaceRuns false l = l := replaceRuns_of_collapsed l false (collapsed_mono l h1)
  have hh : l.head? ≠ some ' ' := head_of_collapsed l h1
  have h2' : ¬(l.getLast? = some ' ') := h2
  simp [cleanText, ReplaceAllString, TrimSuffix, HasPrefix, hr, h2', hh]

theorem processedGrade_eq_cleanGrade (s : String) : processedGrade s = cleanGrade s := by
  simp only [processedGrade, cleanGrade, cleanText, isEmptyData_trim_replace]

theorem cleanGrade_tidy (s : String) :
    collapsed true (cleanGrade s).data = true ∧ (cleanGrade s).data.getLast? ≠ some ' ' := by
  unfold cleanGrade
  cases hb : blank s with
  | true => simp only [if_true]; decide
  | false => simpa using cleanText_tidy s

theorem cleanGrade_not_blank (s : String) : blank (cleanGrade s) = false := by
  have h := (cleanGrade_tidy s).1
  have hne : (cleanGrade s).data ≠ [] := by
    intro h0
    exact cleanGrade_ne_empty s (String.ext h0)
  exact not_blank_of_collapsed _ h hne

/-- What the callbacks store is the cleaned name and the cleaned grade: the
name written by `nameCallback`, and the fields set by `tdCallback` for the
first and for the last cell of a row with more than one cell. -/
theorem callbacks_store_processed (text : String) :
    (∀ (nameId : Nat) (children : List Node) (s : NamesState) (ds : List Discipline),
        (NameBlock.mk children).Text = text → isEmptyData (processedName text) = false →
        setName s.pt.Disciplines nameId (processedName text) = some ds →
          nameCallback nameId ⟨children⟩ s = ({ s with pt := { s.pt with Disciplines := ds } }, true)) ∧
      (∀ (tbodyId trId tdLength : Nat) (s : DataState),
        (tdCallback tbodyId trId tdLength 0 text s).1.controlEvent.Name = processedName text) ∧
      (∀ (tbodyId trId tdLength tdId : Nat) (s : DataState),
        tdId ≠ 0 → tdId + 1 = tdLength →
          (tdCallback tbodyId trId tdLength tdId text s).1.controlEvent.Grade =
            processedGrade text) := by
  refine ⟨?_, ?_, ?_⟩
  · intro nameId children s ds ht he hs
    have he' : isEmptyData (cleanText (NameBlock.mk children).Text) = false := by
      rw [ht]; exact he
    have hs' : setName s.pt.Disciplines nameId (cleanText (NameBlock.mk children).Text) =
        some ds := by
      rw [ht]; exact hs
    rw [nameCallback_eq]
    rw [isEmptyData_cleanText] at he'
    simp only [he', Bool.false_eq_true, if_false, hs']
  · intro tbodyId trId tdLength s
    simp only [tdCallback, if_true, processedName]
  · intro tbodyId trId tdLength tdId s h0 hl
    have hi : (tdId : Int) = (tdLength : Int) - 1 := by omega
    simp only [tdCallback, h0, if_false, hi, if_true, processedGrade]

/-- C12: cleaning is idempotent.  The name cleaning applied to its own result
gives the same result, and so does the grade cleaning; cleaned text does not
start with a space, does not end with a space, and holds no two consecutive
whitespace characters. -/
theorem cleaning_idempotent (s : String) :
    processedName (processedName s) = processedName s ∧
      processedGrade (processedGrade s) = processedGrade s ∧
      (∀ t : String, t = processedName s ∨ t = processedGrade s →
        t.data.head? ≠ some ' ' ∧ t.data.getLast? ≠ some ' ' ∧
          ∀ (pre post : List Char) (x y : Char), t.data = pre ++ x :: y :: post →
            ¬(isSpace x = true ∧ isSpace y = true)) := by
  have hn : ∀ u : String, processedName u = cleanText u := fun _ => rfl
  refine ⟨?_, ?_, ?_⟩
  · rw [hn, hn]
    exact cleanText_of_tidy _ (cleanText_tidy s).1 (cleanText_tidy s).2
  · rw [processedGrade_eq_cleanGrade, processedGrade_eq_cleanGrade]
    have hb := cleanGrade_not_blank s
    have h1 : cleanGrade (cleanGrade s) = cleanText (cleanGrade s) := by
      generalize cleanGrade s = g at hb
      simp [cleanGrade, hb]
    rw [h1]
    exact cleanText_of_tidy _ (cleanGrade_tidy s).1 (cleanGrade_tidy s).2
  · intro t ht
    have htidy : collapsed true t.data = true ∧ t.data.getLast? ≠ some ' ' := by
      rcases ht with rfl | rfl
      · rw [hn]; exact cleanText_tidy s
      · rw [processedGrade_eq_cleanGrade]; exact cleanGrade_tidy s
    refine ⟨head_of_collapsed _ htidy.1, htidy.2, ?_⟩
    intro pre post x y hsplit
    exact no_double_space_of_collapsed _ true pre post x y htidy.1 hsplit

theorem cleaning_idempotent_witness :
    processedName "  Math \n " = "Math" ∧
      processedName (processedName "  Math \n ") = processedName "  Math \n " ∧
      processedGrade " \t " = "отсутствует" ∧
      processedGrade (processedGrade " \t ") = processedGrade " \t " :=
  ⟨rfl, (cleaning_idempotent "  Math \n ").1, rfl, (cleaning_idempotent " \t ").2.1⟩

/-! ## The index `pt.Disciplines[nameId]`: claim C13 -/

theorem split_at_index {α : Type} (l : List α) :
    ∀ k : Nat, k < l.length →
      ∃ (pre : List α) (x : α) (post : List α),
        l = pre ++ x :: post ∧ pre.length = k ∧ l.take (k + 1) = pre ++ [x] := by
  induction l with
  | nil => intro k h; simp at h
  | cons a as ih =>
    intro k h
    cases k with
    | zero => exact ⟨[], a, as, rfl, rfl, by simp⟩
    | succ k =>
      have h' : k < as.length := by simpa using h
      obtain ⟨pre, x, post, h1, h2, h3⟩ := ih k h'
      refine ⟨a :: pre, x, post, by rw [h1]; rfl, by simp [h2], ?_⟩
      simp [List.take_succ_cons, h3]

/-- With at most as many name blocks as disciplines, `extractDisciplineNames`
does not panic. -/
theorem extractDisciplineNames_in_range (doc : Document) (pt : ProgressTable)
    (h : doc.names.length ≤ pt.Disciplines.length) :
    ∃ r, extractDisciplineNames doc pt = .ok r := by
  rcases names_cases doc.names pt.Disciplines.length with ⟨h1, h2⟩ |
    ⟨npre, bad, npost, h1, h2, h3, h4⟩ | ⟨npre, n, npost, h1, h2, h3, h4⟩
  · exact ⟨_, extractDisciplineNames_ok doc pt h1 h2⟩
  · exact ⟨_, extractDisciplineNames_blank doc pt npre npost bad h1 h2 h3 h4⟩
  · exfalso
    rw [h1] at h
    simp only [List.length_append, List.length_cons] at h
    omega

theorem extractProgressTable_wrong_page_of (validString : ProgressTable → Bool)
    (doc : Document) (h : isGradePage doc = false) :
    extractProgressTable validString doc = .ok (none, some .ErrWrongGradesPage) := by
  simp [extractProgressTable, h]

theorem extractProgressTable_in_range (validString : ProgressTable → Bool) (doc : Document)
    (h : doc.names.length ≤ doc.tbody.length) :
    ∃ r, extractProgressTable validString doc = .ok r := by
  cases hpage : isGradePage doc with
  | false => exact ⟨_, extractProgressTable_wrong_page_of validString doc hpage⟩
  | true =>
    by_cases hrows : ∃ b ∈ doc.tbody, ∃ r ∈ b.keptRows, r.blankName = true
    · obtain ⟨pre, b, post, rpre, bad, rpost, h1, h2, h3, h4, h5⟩ :=
        exists_first_blank_row doc.tbody hrows
      exact ⟨_, extractProgressTable_blank_row validString doc hpage pre post b rpre rpost bad
        h1 h2 h3 h4 h5⟩
    · have hrows' : ∀ b ∈ doc.tbody, ∀ r ∈ b.keptRows, r.blankName = false := by
        intro b hb r hr
        cases hbl : r.blankName with
        | false => rfl
        | true => exact absurd ⟨b, hb, r, hr, hbl⟩ hrows
      rcases names_cases doc.names doc.tbody.length with ⟨h1, h2⟩ |
        ⟨npre, bad, npost, h1, h2, h3, h4⟩ | ⟨npre, n, npost, h1, h2, h3, h4⟩
      · rw [extractProgressTable_names_ok validString doc hpage hrows' h1 h2]
        split
        · exact ⟨_, rfl⟩
        · exact ⟨_, rfl⟩
      · exact ⟨_, extractProgressTable_blank_name validString doc hpage hrows' npre npost bad
          h1 h2 h3 h4⟩
      · exfalso
        rw [h1] at h
        simp only [List.length_append, List.length_cons] at h
        omega

/-- C13 (counterexample): two grade pages with one `tbody` and two non-empty
name blocks on which no index falls out of range: the first has an empty name
block in front, the second a kept row with an empty first cell, and both make
`extractProgressTable` return an error. -/
theorem extractProgressTable_more_names_no_panic :
    (blankFirstNamePage.names.filter fun n => !blank n.ownText).length = 2 ∧
      blankFirstNamePage.tbody.length = 1 ∧
      extractProgressTable (fun _ => true) blankFirstNamePage =
        .ok (none, some (.wrapped "extractDisciplineNames" (.emptyName 0))) ∧
      (blankRowTwoNamesPage.names.filter fun n => !blank n.ownText).length = 2 ∧
      blankRowTwoNamesPage.names.length = 2 ∧
      blankRowTwoNamesPage.tbody.length = 1 ∧
      extractProgressTable (fun _ => true) blankRowTwoNamesPage =
        .ok (none, some (.wrapped "extractDisciplinesData" (.emptyData 0 0 0))) := by
  refine ⟨by decide, rfl, rfl, by decide, rfl, rfl, rfl⟩

/-- C13 (amended): `extractDisciplineNames` compares no lengths.  With at most
as many name blocks as `tbody` blocks every index is in range:
`extractDisciplineNames` does not panic on a table with one discipline per
`tbody`, and `extractProgressTable` returns a table or an error.  On a grade
page whose kept rows all have a non-blank first cell, with more name blocks
than `tbody` blocks, the first of them as far as position `len(tbody)` being
non-empty, the index at that position is out of range and
`extractProgressTable` panics. -/
theorem names_index_range (validString : ProgressTable → Bool) (document : Document) :
    (document.names.length ≤ document.tbody.length →
        (∃ r, extractProgressTable validString document = .ok r) ∧
          ∀ pt : ProgressTable, pt.Disciplines.length = document.tbody.length →
            ∃ r, extractDisciplineNames document pt = .ok r) ∧
      (isGradePage document = true →
        (∀ b ∈ document.tbody, ∀ r ∈ b.keptRows, r.blankName = false) →
        document.tbody.length < document.names.length →
        (∀ n ∈ document.names.take (document.tbody.length + 1), cleanText n.ownText ≠ "") →
          extractProgressTable validString document =
            .error (.indexOutOfRange document.tbody.length document.tbody.length)) := by
  constructor
  · intro h
    refine ⟨extractProgressTable_in_range validString document h, ?_⟩
    intro pt hpt
    exact extractDisciplineNames_in_range document pt (by rw [hpt]; exact h)
  · intro hpage hrows hlen hnames
    obtain ⟨npre, n, npost, h1, h2, h3⟩ := split_at_index document.names _ hlen
    have hnb : ∀ m ∈ npre ++ [n], blank m.ownText = false := by
      intro m hm
      cases hb : blank m.ownText with
      | false => rfl
      | true =>
        have := hnames m (by rw [h3]; exact hm)
        exact absurd (cleanText_of_blank _ hb) this
    exact extractProgressTable_panic validString document hpage hrows npre npost n h1
      (fun m hm => hnb m (List.mem_append_left _ hm))
      (hnb n (List.mem_append_right _ (List.mem_singleton_self n))) h2

theorem names_index_range_witness :
    ((∃ r, extractProgressTable (fun _ => true) mathPage = .ok r) ∧
        ∀ pt : ProgressTable, pt.Disciplines.length = mathPage.tbody.length →
          ∃ r, extractDisciplineNames mathPage pt = .ok r) ∧
      extractProgressTable (fun _ => true) twoNamesPage =
        .error (.indexOutOfRange twoNamesPage.tbody.length twoNamesPage.tbody.length) :=
  ⟨(names_index_range (fun _ => true) mathPage).1 (by decide),
    (names_index_range (fun _ => true) twoNamesPage).2 rfl (by decide) (by decide)
      (by decide)⟩

/-! ## The reset of the session client: claim C11 -/

theorem cleared_record {σ : Type} (w : World σ) (call : Call) (ok : Bool) (st : σ) :
    cleared (w.record call ok st).trace = (cleared w.trace || cleared [(call, ok)]) := by
  simp [World.record, cleared, List.any_append]

/-- `getGradesPageDocument` calls no `Clear`. -/
theorem getGradesPageDocument_cleared {σ : Type} (env : Env σ) (c : Client) (w : World σ) :
    cleared (getGradesPageDocument env c w).2.trace = cleared w.trace := by
  unfold getGradesPageDocument
  rcases h1 : env.MakeRequest c w.state with ⟨r, st⟩
  cases r with
  | error e =>
    simp only [cleared_record]
    simp [cleared]
  | ok response =>
    simp only
    cases h2 : env.NewDocumentFromReader response with
    | error e =>
      simp only [cleared_record]
      simp [cleared]
    | ok document =>
      simp only
      split <;>
        (simp only [cleared_record]
         simp [cleared])

/-- The statements of `GetProgressTable` after the nil check call no `Clear`. -/
theorem GetProgressTable_run_cleared {σ : Type} (env : Env σ) (credentials : BarsCredentials)
    (c : Client) (w : World σ) :
    cleared (GetProgressTable.run env credentials c w).2.trace = cleared w.trace := by
  unfold GetProgressTable.run
  rcases h1 : env.ClientAuthorization c credentials.Username credentials.Password w.state with
    ⟨r, st⟩
  cases r with
  | some e =>
    simp only [cleared_record]
    simp [cleared]
  | none =>
    simp only
    have hg := getGradesPageDocument_cleared env c
      (w.record (.ClientAuthorization c credentials.Username credentials.Password) true st)
    simp only [cleared_record] at hg
    have hc : cleared
        [(Call.ClientAuthorization c credentials.Username credentials.Password, true)] = false := rfl
    rw [hc, Bool.or_false] at hg
    rcases hd : getGradesPageDocument env c
      (w.record (.ClientAuthorization c credentials.Username credentials.Password) true st) with
      ⟨⟨d, e⟩, w2⟩
    rw [hd] at hg
    cases d with
    | none => cases e <;> exact hg
    | some document =>
      cases e with
      | some e => exact hg
      | none =>
        simp only
        cases he : extractProgressTable env.validString document with
        | error p => exact hg
        | ok v =>
          obtain ⟨t, e⟩ := v
          cases t <;> cases e <;> exact hg

/-- `GetProgressTable` calls no `Clear`, with a client or with the nil client. -/
theorem GetProgressTable_cleared {σ : Type} (env : Env σ) (credentials : BarsCredentials)
    (barsClient : Option Client) (w : World σ) :
    cleared (GetProgressTable env credentials barsClient w).2.trace = cleared w.trace := by
  cases barsClient with
  | some c => exact GetProgressTable_run_cleared env credentials c w
  | none =>
    unfold GetProgressTable
    rcases hn : env.NewClient w.state with ⟨c, st⟩
    simp only
    rw [GetProgressTable_run_cleared, cleared_record]
    simp [cleared]

/-- C11 (counterexample): `GetProgressTable`, handed client 7, returns the
table without any `Clear` in its calls and leaves the session of client 7
open; it does the same when the portal serves a page without the marker and
it returns `ErrWrongGradesPage`. -/
theorem GetProgressTable_no_clear :
    GetProgressTable (memEnv mathPage noFaults) sampleCredentials (some 7) ⟨emptyMem, []⟩ =
        (.ok (some ⟨42, [mathDiscipline]⟩, none),
          ⟨{ emptyMem with sessions := [7] },
            [(.ClientAuthorization 7 "student" [112, 119], true), (.MakeRequest 7, true)]⟩) ∧
      GetProgressTable (memEnv unmarkedPage noFaults) sampleCredentials (some 7)
          ⟨emptyMem, []⟩ =
        (.ok (none, some (.wrapped "getGradesPageDocument" .ErrWrongGradesPage)),
          ⟨{ emptyMem with sessions := [7] },
            [(.ClientAuthorization 7 "student" [112, 119], true), (.MakeRequest 7, true)]⟩) ∧
      cleared [(Call.ClientAuthorization 7 "student" [112, 119], true),
        (Call.MakeRequest 7, true)] = false := by
  exact ⟨rfl, rfl, rfl⟩

/-- C11 (amended): both `Authorization` methods end every run, whatever its
outcome (nil, an error of any step, a panic), with `Clear` on the service's
client: it is the last call of the log and the final state is the one `Clear`
makes of the state the body left.  `GetProgressTable` itself never calls
`Clear`, neither on the client it is handed nor on the client it creates for
the nil argument: the reset is left to its caller. -/
theorem Clear_on_every_exit {σ : Type} (env : Env σ) (s : svc)
    (credentials : BarsCredentials) (w : World σ) :
    ((Authorization env s credentials w).2.2.trace.getLast? =
          some (.Clear s.barsClient, true) ∧
        (Authorization env s credentials w).2.2.state =
          env.Clear s.barsClient (Authorization.body env s credentials w).2.2.state ∧
        (Authorization env s credentials w).1 = (Authorization.body env s credentials w).1) ∧
      ((bars_credential.Authorization env s credentials w).2.2.trace.getLast? =
          some (.Clear s.barsClient, true) ∧
        (bars_credential.Authorization env s credentials w).2.2.state =
          env.Clear s.barsClient
            (bars_credential.Authorization.body env s credentials w).2.2.state ∧
        (bars_credential.Authorization env s credentials w).1 =
          (bars_credential.Authorization.body env s credentials w).1) ∧
      (∀ barsClient : Option Client,
        cleared (GetProgressTable env credentials barsClient w).2.trace = cleared w.trace) := by
  refine ⟨?_, ?_, fun bc => GetProgressTable_cleared env credentials bc w⟩
  · unfold Authorization
    rcases hb : Authorization.body env s credentials w with ⟨r, c, w'⟩
    simp [World.record]
  · unfold bars_credential.Authorization
    rcases hb : bars_credential.Authorization.body env s credentials w with ⟨r, c, w'⟩
    simp [World.record]

theorem Clear_on_every_exit_witness :
    (Authorization (memEnv mathPage loginFails) sampleSvc sampleCredentials
          ⟨emptyMem, []⟩).2.2.trace.getLast? = some (.Clear sampleSvc.barsClient, true) ∧
      (Authorization (memEnv mathPage noFaults) sampleSvc sampleCredentials
          ⟨emptyMem, []⟩).2.2.trace.getLast? = some (.Clear sampleSvc.barsClient, true) ∧
      (Authorization (memEnv mathPage noFaults) sampleSvc sampleCredentials
          ⟨emptyMem, []⟩).2.2.state.sessions = [] ∧
      (Authorization (memEnv twoNamesPage noFaults) sampleSvc sampleCredentials
          ⟨emptyMem, []⟩).1 = .error (.indexOutOfRange 1 1) ∧
      (Authorization (memEnv twoNamesPage noFaults) sampleSvc sampleCredentials
          ⟨emptyMem, []⟩).2.2.trace.getLast? = some (.Clear sampleSvc.barsClient, true) ∧
      cleared (GetProgressTable (memEnv mathPage noFaults) sampleCredentials none
          ⟨emptyMem, []⟩).2.trace = cleared [] :=
  ⟨(Clear_on_every_exit (memEnv mathPage loginFails) sampleSvc sampleCredentials
      ⟨emptyMem, []⟩).1.1,
    (Clear_on_every_exit (memEnv mathPage noFaults) sampleSvc sampleCredentials
      ⟨emptyMem, []⟩).1.1,
    rfl, rfl,
    (Clear_on_every_exit (memEnv twoNamesPage noFaults) sampleSvc sampleCredentials
      ⟨emptyMem, []⟩).1.1,
    (Clear_on_every_exit (memEnv mathPage noFaults) sampleSvc sampleCredentials
      ⟨emptyMem, []⟩).2.2 none⟩

end bars
